import Mathlib

/-!
Verification of the `parameters` library (hierarchical parameter sets).

This file gives a shallow embedding of the core data model and algorithms of
the library:

  * `ParameterSet` (a `dict` subclass): modelled as `PTree`, an insertion-ordered
    association list from string keys to values, mirroring Python 3 `dict`
    semantics (insertion order preserved, assignment to an existing key keeps
    its position).
  * parameter values: `PValue` covers every runtime kind the library handles:
    integers, strings, plain sequences, `ParameterSet` subtrees, raw `dict`s
    (which can enter a tree through `__setitem__`), `ParameterRange`,
    `ParameterDist` (opaque — `distributions.py` internals are not needed by
    any claim), `ParameterReference` (target path plus lazy operation chain),
    and `other`, an arbitrary unrecognised Python object (default object
    semantics: no iteration, no arithmetic, identity equality).
  * dotted-path access (`__getitem__`, `__setitem__`, `flat_add`, attribute
    access), `flat`/`flatten` (`_nesteddictwalk`), `_is_space`, `tree_copy`,
    the `ParameterSet.__init__` walk, reference collection/evaluation and the
    `replace_references` fixed-point loop, and the `ParameterSpace` machinery
    (`range_keys`, `iter_inner_range_keys`, `num_conditions`,
    `parameter_space_dimension_labels`, `parameter_space_index`).

Python exceptions are modelled by the `PErr` type; functions that can raise
return `Except PErr`.  Because `replace_references` contains a `while True`
loop with no progress guard, it is modelled with an explicit fuel parameter;
`none` means the fuel was exhausted, and divergence of the Python loop on an
input is rendered as "for every fuel the result is `none`".

The types are a mutual inductive family (`PValue`/`PList`/`PTree`/`POps`)
rather than one inductive nested through `List`, so that all functions are
structurally recursive and therefore compute by kernel reduction (`decide`).
-/

deriving instance DecidableEq for Except

namespace Params

/-- Lexicographic comparison of character lists by code point (helper for
`strLe`). -/
def lexLeCh : List Char → List Char → Bool
  | [], _ => true
  | _ :: _, [] => false
  | a :: as, b :: bs =>
      if a.toNat < b.toNat then true
      else if b.toNat < a.toNat then false
      else lexLeCh as bs

/-- String comparison by Unicode code point, exactly Python's `str` ordering
(and the standard lexicographic string order, stated in a kernel-computable
form). -/
def strLe (a b : String) : Bool :=
  lexLeCh a.data b.data

/-- Lazy operator tags stored in a `ParameterReference` operation chain.
`add`, `sub`, `mul`, `truediv`, `pow` are `operator.add` etc.; `rsub` and
`rtruediv` are the argument-reversed forms produced by `__rsub__`/`__rtruediv__`
(`_lazy_operation(name, reversed=True)`).  `__radd__`/`__rmul__` alias the
direct forms, so there are no reversed tags for them.  `operator.div` does not
exist under Python 3, so `__div__`/`__rdiv__` are omitted. -/
inductive Op where
  | add
  | sub
  | rsub
  | mul
  | truediv
  | rtruediv
  | pow
  deriving DecidableEq, Repr

/-- Python exception kinds surfaced by the modelled code.  `pointNotInSpace`
and `invalidRefTarget` are both `ValueError` at runtime but are distinguished
here by their message, matching the spec's error vocabulary.
`unmodelledFloat` flags the arithmetic results that leave the exact integer
fragment modelled here (true division, negative exponents); no claim exercises
them. -/
inductive PErr where
  | keyError
  | typeError
  | attributeError
  | invalidName
  | stopIteration
  | pointNotInSpace
  | invalidRefTarget
  | unmodelledFloat
  deriving DecidableEq, Repr

mutual
/-- A runtime parameter value (one leaf or node of a `ParameterSet`). -/
inductive PValue where
  | int (n : Int)
  | str (s : String)
  | list (l : PList)
  | tree (t : PTree)
  | dict (d : PTree)
  | range (vs : PList)
  | dist (id : Nat)
  | ref (path : String) (ops : POps)
  | other (id : Nat)
  deriving DecidableEq, Repr

/-- A Python list of parameter values. -/
inductive PList where
  | nil
  | cons (v : PValue) (rest : PList)
  deriving DecidableEq, Repr

/-- The association-list spine of a `ParameterSet`/`dict`, in insertion
order. -/
inductive PTree where
  | nil
  | cons (k : String) (v : PValue) (rest : PTree)
  deriving DecidableEq, Repr

/-- A `ParameterReference.operations` chain: ordered `(operator, operand)`
pairs. -/
inductive POps where
  | nil
  | cons (op : Op) (arg : PValue) (rest : POps)
  deriving DecidableEq, Repr
end

/-- Convert a `PList` to a standard list. -/
def PList.toList : PList → List PValue
  | .nil => []
  | .cons v rest => v :: rest.toList

/-- Number of elements of a `PList` (Python `len` of the underlying list). -/
def PList.length : PList → Nat
  | .nil => 0
  | .cons _ rest => 1 + rest.length

/-- Convert a `PTree` spine to a standard association list. -/
def PTree.toList : PTree → List (String × PValue)
  | .nil => []
  | .cons k v rest => (k, v) :: rest.toList

/-- Number of entries of a `PTree` (Python `len` of the dict). -/
def PTree.length : PTree → Nat
  | .nil => 0
  | .cons _ _ rest => 1 + rest.length

/-- Keys of a `PTree`, in insertion order. -/
def PTree.keys : PTree → List String
  | .nil => []
  | .cons k _ rest => k :: rest.keys

/-- Association-spine concatenation (reasoning helper: a Python dict extended
with fresh keys is the old spine with the new entries appended). -/
def PTree.append : PTree → PTree → PTree
  | .nil, b => b
  | .cons k v rest, b => .cons k v (rest.append b)

/-- Convert a `POps` chain to a standard list. -/
def POps.toList : POps → List (Op × PValue)
  | .nil => []
  | .cons op arg rest => (op, arg) :: rest.toList

/-- Append two operation chains (used by the reference operator methods,
which `append` to `self.operations`). -/
def POps.append : POps → POps → POps
  | .nil, o => o
  | .cons op arg rest, o => .cons op arg (rest.append o)

/-- Plain single-level dictionary lookup (`dict.__getitem__` on a dot-free
key), returning `none` for `KeyError`. -/
def lookup1 : PTree → String → Option PValue
  | .nil, _ => none
  | .cons k v rest, key => if k = key then some v else lookup1 rest key

/-- Plain single-level dictionary assignment (`dict.__setitem__`): replace in
place if the key exists (keeping its position), otherwise append (Python 3
dicts append new keys at the end). -/
def dictSet : PTree → String → PValue → PTree
  | .nil, key, v => .cons key v .nil
  | .cons k w rest, key, v =>
      if k = key then .cons k v rest else .cons k w (dictSet rest key v)

/-- Split a character list at every `.` (helper for `splitDots`). -/
def splitDotsAux : List Char → List Char → List (List Char)
  | [], acc => [acc.reverse]
  | c :: cs, acc =>
      if c = '.' then acc.reverse :: splitDotsAux cs [] else splitDotsAux cs (c :: acc)

/-- All components of a dotted path (`name.split('.')`).  The library always
splits with `maxsplit=1` and recurses, which is equivalent to walking this
full component list one element at a time. -/
def splitDots (s : String) : List String :=
  (splitDotsAux s.data []).map List.asString

/-- Join components with the `.` separator (`'.'.join` /
`"%s.%s" % (k1, k2)`). -/
def joinDots : List String → String
  | [] => ""
  | [c] => c
  | c :: rest => c ++ "." ++ joinDots rest

/-- Dotted-path lookup over path components: `ParameterSet.__getitem__`.
The source splits the name at the first `.`; with no separator it does a
plain `dict.__getitem__`, otherwise it recurses into the sub-object.
Recursing into a nested `ParameterSet` re-enters this function; subscripting a
plain `dict` is a flat lookup of the remaining dotted string (plain dicts do
not split); subscripting any other value raises `TypeError` (note: *not*
`KeyError`).  The `[]` case is unreachable (`splitDots` never returns `[]`). -/
def getP : PTree → List String → Except PErr PValue
  | _, [] => .error .keyError
  | t, [k] =>
      match lookup1 t k with
      | some v => .ok v
      | none => .error .keyError
  | t, k :: rest =>
      match lookup1 t k with
      | none => .error .keyError
      | some (.tree sub) => getP sub rest
      | some (.dict d) =>
          match lookup1 d (joinDots rest) with
          | some v => .ok v
          | none => .error .keyError
      | some _ => .error .typeError

/-- Strict dotted-path assignment over path components:
`ParameterSet.__setitem__`.  With no separator it is a plain dict assignment;
otherwise it looks up the first component (raising `KeyError` if absent) and
recurses — it never creates intermediate trees.  Assignment through a plain
`dict` stores under the remaining dotted string flat; through any other value
it raises `TypeError`. -/
def setP : PTree → List String → PValue → Except PErr PTree
  | _, [], _ => .error .keyError
  | t, [k], v => .ok (dictSet t k v)
  | t, k :: rest, v =>
      match lookup1 t k with
      | none => .error .keyError
      | some (.tree sub) => do
          let sub' ← setP sub rest v
          .ok (dictSet t k (.tree sub'))
      | some (.dict d) => .ok (dictSet t k (.dict (dictSet d (joinDots rest) v)))
      | some _ => .error .typeError

/-- Attribute-chain lookup over path components under the *no-shadowing
approximation*: each step reads the dict entry, which is what
`eval('obj.' + dotted_path)` reaches through `ParameterSet.__getattr__`
exactly when no component names a genuine attribute of the object — normal
attribute lookup (the instance attributes `label`, `_url`, `names` and
`parameters` installed by `__init__`, class methods such as `flat` and
`flatten`, `dict` methods) precedes the `__getattr__` dict fallback and
shadows same-named dict entries.  The shadow-aware model is `attrGetPyP`
below, and `attrGetPyP_unshadowed` proves the two agree on unshadowed
paths.  A missing key raises `AttributeError` (`__getattr__` falls back to
`__getattribute__`, which re-raises), and `getattr` on a
non-`ParameterSet` value raises `AttributeError` for the key components
occurring here. -/
def attrGetP : PTree → List String → Except PErr PValue
  | _, [] => .error .attributeError
  | t, [k] =>
      match lookup1 t k with
      | some v => .ok v
      | none => .error .attributeError
  | t, k :: rest =>
      match lookup1 t k with
      | none => .error .attributeError
      | some (.tree sub) => attrGetP sub rest
      | some _ => .error .attributeError

/-- Lenient dotted-path insertion over path components:
`ParameterSet.flat_add`.  A missing first component is created as an empty
`ParameterSet` and recursion continues into it; an existing `ParameterSet`
component is recursed into; any other existing value has no `flat_add`
method, so Python raises `AttributeError`. -/
def flatAddP : PTree → List String → PValue → Except PErr PTree
  | _, [], _ => .error .keyError
  | t, [k], v => .ok (dictSet t k v)
  | t, k :: rest, v =>
      match lookup1 t k with
      | none => do
          let sub ← flatAddP .nil rest v
          .ok (dictSet t k (.tree sub))
      | some (.tree sub) => do
          let sub' ← flatAddP sub rest v
          .ok (dictSet t k (.tree sub'))
      | some _ => .error .attributeError

/-- Dotted-string front ends, splitting exactly as the source does. -/
def psGet (t : PTree) (name : String) : Except PErr PValue :=
  getP t (splitDots name)

/-- Dotted-string strict assignment (`ParameterSet.__setitem__`). -/
def psSetItem (t : PTree) (name : String) (v : PValue) : Except PErr PTree :=
  setP t (splitDots name) v

/-- Dotted-string attribute-chain lookup (`eval('obj.' + name)`). -/
def attrGetS (t : PTree) (name : String) : Except PErr PValue :=
  attrGetP t (splitDots name)

/-- Dotted-string lenient insertion (`ParameterSet.flat_add`). -/
def flatAdd (t : PTree) (name : String) (v : PValue) : Except PErr PTree :=
  flatAddP t (splitDots name) v

/-- Does nothing block a lenient `flat_add` along this path?  True when every
intermediate component is either absent (it will be created) or already a
sub-tree; `flat_add` only fails when an intermediate exists but is not a
`ParameterSet` (no `flat_add` attribute). -/
def addPathClear : PTree → List String → Bool
  | _, [] => true
  | _, [_] => true
  | t, k :: rest =>
      match lookup1 t k with
      | none => true
      | some (.tree sub) => addPathClear sub rest
      | some _ => false

/-- The `_nesteddictwalk` generator (= `ParameterSet.flat`, and the pair
source of `flatten`): every `(dotted_path, leaf)` pair found by recursive
descent, where both `ParameterSet`s and plain `dict`s are descended into
(`isinstance(value1, dict)` covers both) and every non-dict value is a leaf.
Order is the dict iteration (insertion) order. -/
def nestedDictWalk : PTree → List (String × PValue)
  | .nil => []
  | .cons k (.tree sub) rest =>
      (nestedDictWalk sub).map (fun kv => (k ++ "." ++ kv.1, kv.2)) ++ nestedDictWalk rest
  | .cons k (.dict sub) rest =>
      (nestedDictWalk sub).map (fun kv => (k ++ "." ++ kv.1, kv.2)) ++ nestedDictWalk rest
  | .cons k v rest => (k, v) :: nestedDictWalk rest

/-- Is this value a `ParameterRange`? -/
def isRangeV : PValue → Bool
  | .range _ => true
  | _ => false

/-- Is this value a `ParameterDist`? -/
def isDistV : PValue → Bool
  | .dist _ => true
  | _ => false

/-- The `ParameterSet._is_space` check: some leaf reached by `flat()` is a
`ParameterRange` or a `ParameterDist`. -/
def isSpace (t : PTree) : Bool :=
  (nestedDictWalk t).any (fun kv => isRangeV kv.2 || isDistV kv.2)

/-- The `ParameterSpace.range_keys` method: dotted paths of the leaves that
are `ParameterRange`s, in `flat()` (traversal) order — the source applies no
sorting here. -/
def rangeKeys (t : PTree) : List String :=
  ((nestedDictWalk t).filter (fun kv => isRangeV kv.2)).map Prod.fst

/-- The `_isiterable` helper from `parameter.py`:
`hasattr(x, '__iter__') and not hasattr(x, 'lower')`.  Strings satisfy the
iteration protocol but are deliberately excluded by the `lower` test. -/
def isIterable : PValue → Bool
  | .str _ => false
  | .list _ => true
  | .tree _ => true
  | .dict _ => true
  | .range _ => true
  | _ => false

/-- Does `iter(x)` succeed in Python for this value kind?  Differs from
`isIterable` exactly on strings. -/
def hasIterProtocol : PValue → Bool
  | .str _ => true
  | v => isIterable v

/-- The elements produced by `for val in x`: list elements, string
characters, dict keys, and a `ParameterRange`'s `_values`
(`ParameterRange.__iter__` returns `iter(self._values)`).  Non-iterables
raise `TypeError`. -/
def pyIter : PValue → Except PErr (List PValue)
  | .list l => .ok l.toList
  | .str s => .ok (s.data.map (fun c => .str (String.mk [c])))
  | .tree t => .ok (t.keys.map .str)
  | .dict d => .ok (d.keys.map .str)
  | .range vs => .ok vs.toList
  | _ => .error .typeError

/-- Python `len(x)` for the modelled kinds.  `len` of a `ParameterRange` is
`len(self._values)`. -/
def pyLen : PValue → Except PErr Nat
  | .list l => .ok l.length
  | .str s => .ok s.length
  | .tree t => .ok t.length
  | .dict d => .ok d.length
  | .range vs => .ok vs.length
  | _ => .error .typeError

mutual
/-- The tree part of `ParameterSet.tree_copy`: nested `ParameterSet`s are
rebuilt recursively, `ParameterReference`s are copied via their own `copy`
method, and every other value is re-referenced (shared). -/
def treeCopyT : PTree → PTree
  | .nil => .nil
  | .cons k (.tree sub) rest => .cons k (.tree (treeCopyT sub)) (treeCopyT rest)
  | .cons k (.ref p o) rest => .cons k (.ref p (refCopyOps o)) (treeCopyT rest)
  | .cons k v rest => .cons k v (treeCopyT rest)

/-- The `ParameterReference.copy` treatment of an operation chain: operands
that are themselves references are deep-copied, other operands are shared. -/
def refCopyOps : POps → POps
  | .nil => .nil
  | .cons op (.ref p o) rest => .cons op (.ref p (refCopyOps o)) (refCopyOps rest)
  | .cons op a rest => .cons op a (refCopyOps rest)
end

/-- Full `ParameterSet.tree_copy`: after rebuilding, the copy is
re-classified — if it `_is_space()` it is wrapped as a `ParameterSpace`.  The
Boolean records the runtime class of the returned object (`true` =
`ParameterSpace`). -/
def treeCopy (t : PTree) : Bool × PTree :=
  let c := treeCopyT t
  (isSpace c, c)

/-- Append two `PList`s (Python list concatenation). -/
def PList.append : PList → PList → PList
  | .nil, l => l
  | .cons v rest, l => .cons v (rest.append l)

/-- The `ParameterSet.check_validity` static method: only the names in
`invalid_names = ['parameters', 'names']` are rejected.  `label`, `flatten`
and the other entries of `non_parameter_attributes` are *not* checked here. -/
def checkValidity (k : String) : Except PErr Unit :=
  if k = "parameters" ∨ k = "names" then .error .invalidName else .ok ()

/-- The copy loop shared by `ParameterSet.__init__` once values are promoted:
for each item, re-check the key and store with `self[k] = v`, which is the
dot-splitting strict `__setitem__`. -/
def constructorFold : PTree → PTree → Except PErr PTree
  | .nil, acc => .ok acc
  | .cons k v rest, acc => do
      let _ ← checkValidity k
      let acc' ← setP acc (splitDots k) v
      constructorFold rest acc'

mutual
/-- The per-item pass of `ParameterSet.__init__` (and of its inner `walk`):
check each key's validity and promote plain-`dict` values to `ParameterSet`s;
`ParameterSet` values and all other leaves are stored as-is — note that no
leaf-kind validation of any sort is performed.  The source interleaves this
pass with the `self[k] = v` stores; the only observable difference of doing
the item pass first is which exception surfaces when several items are
invalid. -/
def psInitItems : PTree → Except PErr PTree
  | .nil => .ok .nil
  | .cons k v rest => do
      let _ ← checkValidity k
      let v' ← psPromote v
      let rest' ← psInitItems rest
      .ok (.cons k v' rest')

/-- Promotion of one `__init__` value: a plain `dict` is recursively walked
and becomes a `ParameterSet` (`walk` ends with a recursive `ParameterSet(d)`
construction, whose stores split dotted keys); anything else is kept. -/
def psPromote : PValue → Except PErr PValue
  | .dict d => do
      let d' ← psInitItems d
      let t ← constructorFold d' .nil
      .ok (.tree t)
  | v => .ok v
end

/-- The `ParameterSet.__init__` body for a mapping initialiser: per-item key
check and dict promotion, then the dot-splitting stores. -/
def psInitTree (d : PTree) : Except PErr PTree := do
  let d' ← psInitItems d
  constructorFold d' .nil

/-- String repetition (`s * n` in Python; non-positive `n` gives `''`). -/
def strRepeat (s : String) (n : Int) : String :=
  String.join (List.replicate n.toNat s)

/-- List repetition (`l * n`). -/
def pListRepeat (l : PList) (n : Int) : PList :=
  (List.replicate n.toNat l).foldr PList.append .nil

/-- Semantics of Python's binary dispatch `operator.op(a, b)` over the
modelled kinds, for the direct operator tags.  A `ParameterReference` on the
left wins (`ParameterReference.__add__` etc. accept any operand, append to
`self.operations` and return `self`); otherwise a reference on the right is
reached through the reflected protocol — `__radd__`/`__rmul__` alias the
direct methods, `__rsub__`/`__rtruediv__` store a reversed tag, and there is
no `__rpow__`, so `pow` against a reference on the right is a `TypeError`.
Integer arithmetic is exact; true division and negative exponents would
produce Python floats and are flagged `unmodelledFloat` (no claim reaches
them). -/
def binop : Op → PValue → PValue → Except PErr PValue
  | op, .ref p o, arg =>
      match op with
      | .add => .ok (.ref p (o.append (.cons .add arg .nil)))
      | .sub => .ok (.ref p (o.append (.cons .sub arg .nil)))
      | .mul => .ok (.ref p (o.append (.cons .mul arg .nil)))
      | .truediv => .ok (.ref p (o.append (.cons .truediv arg .nil)))
      | .pow => .ok (.ref p (o.append (.cons .pow arg .nil)))
      | _ => .error .typeError
  | op, a, .ref p o =>
      match op with
      | .add => .ok (.ref p (o.append (.cons .add a .nil)))
      | .mul => .ok (.ref p (o.append (.cons .mul a .nil)))
      | .sub => .ok (.ref p (o.append (.cons .rsub a .nil)))
      | .truediv => .ok (.ref p (o.append (.cons .rtruediv a .nil)))
      | _ => .error .typeError
  | .add, .int a, .int b => .ok (.int (a + b))
  | .sub, .int a, .int b => .ok (.int (a - b))
  | .mul, .int a, .int b => .ok (.int (a * b))
  | .pow, .int a, .int b =>
      if 0 ≤ b then .ok (.int (a ^ b.toNat)) else .error .unmodelledFloat
  | .truediv, .int _, .int _ => .error .unmodelledFloat
  | .add, .str a, .str b => .ok (.str (a ++ b))
  | .mul, .str s, .int n => .ok (.str (strRepeat s n))
  | .mul, .int n, .str s => .ok (.str (strRepeat s n))
  | .add, .list a, .list b => .ok (.list (a.append b))
  | .mul, .list l, .int n => .ok (.list (pListRepeat l n))
  | .mul, .int n, .list l => .ok (.list (pListRepeat l n))
  | _, _, _ => .error .typeError

/-- Application of one stored `(operator, operand)` pair to the running value
`x`: the reversed tags recorded by `__rsub__`/`__rtruediv__` are
`_reverse(f)`, i.e. `f(operand, x)`. -/
def applyOp : Op → PValue → PValue → Except PErr PValue
  | .rsub, x, arg => binop .sub arg x
  | .rtruediv, x, arg => binop .truediv arg x
  | op, x, arg => binop op x arg

/-- The `ParameterReference._apply_operations` loop: fold the operation chain
left to right over the target's value (a `TypeError` inside is re-raised as
`TypeError`). -/
def applyOperations : PValue → POps → Except PErr PValue
  | x, .nil => .ok x
  | x, .cons op arg rest => do
      let x' ← applyOp op x arg
      applyOperations x' rest

/-- The `ParameterReference.evaluate` method against a parameter set: look up
the target path on the whole set; a `ParameterSet` target is tree-copied but
only if the operation chain is empty (`InvalidReferenceTarget` otherwise,
a `ValueError` at runtime); a target that is itself still a
`ParameterReference` defers — the reference returns itself unchanged; any
other value has the operation chain applied. -/
def evaluate (path : String) (ops : POps) (t : PTree) : Except PErr PValue :=
  match psGet t path with
  | .error e => .error e
  | .ok (.tree sub) =>
      match ops with
      | .nil => .ok (.tree (treeCopyT sub))
      | _ => .error .invalidRefTarget
  | .ok (.ref _ _) => .ok (.ref path ops)
  | .ok v => applyOperations v ops

/-- One collected reference occurrence: owner subtree path (components from
the root), key inside the owner, and the reference's target path and
operation chain. -/
abbrev RefItem := List String × String × String × POps

/-- The `ParameterSet.find_references` scan: every top-level
`ParameterReference` item, then (at its iteration position) the occurrences
inside each nested `ParameterSet`.  Plain `dict` values are not descended
into. -/
def findReferences : PTree → List RefItem
  | .nil => []
  | .cons k (.ref p o) rest => ([], k, p, o) :: findReferences rest
  | .cons k (.tree sub) rest =>
      (findReferences sub).map (fun r => (k :: r.1, r.2)) ++ findReferences rest
  | .cons _ _ rest => findReferences rest

/-- Write an evaluated reference result back into its owner (`s[k] = ...`).
The owner object is addressed here by its path from the root, which is
faithful because a pass only writes at positions that held references, while
owner paths pass only through subtree positions captured at scan time.  The
final store is the owner's dot-splitting `__setitem__`. -/
def setOwner : PTree → List String → String → PValue → Except PErr PTree
  | t, [], k, v => setP t (splitDots k) v
  | t, c :: rest, k, v =>
      match lookup1 t c with
      | some (.tree sub) => do
          let sub' ← setOwner sub rest k v
          .ok (dictSet t c (.tree sub'))
      | _ => .error .keyError

/-- One pass of the `replace_references` loop body:
`for s, k, v in refs: s[k] = v.evaluate(self)`, each evaluation seeing the
stores already made in this same pass. -/
def onePass : PTree → List RefItem → Except PErr PTree
  | t, [] => .ok t
  | t, (ownerPath, k, p, o) :: rest => do
      let v ← evaluate p o t
      let t' ← setOwner t ownerPath k v
      onePass t' rest

/-- The `ParameterSet.replace_references` fixed-point loop, with explicit
fuel standing for the number of `while True` iterations the caller is willing
to observe: the source has no progress check or iteration cap, so `none`
(fuel exhausted at every fuel) renders non-termination. -/
def replaceReferences : Nat → PTree → Option (Except PErr PTree)
  | 0, _ => none
  | n + 1, t =>
      match findReferences t with
      | [] => some (.ok t)
      | refs =>
          match onePass t refs with
          | .error e => some (.error e)
          | .ok t' => replaceReferences n t'

/-- The `ParameterRange.__init__` constructor on a source object: a source
failing `_isiterable` (which excludes strings by design) raises `TypeError`;
otherwise `Parameter.__init__(self, next(value.__iter__()), ...)`
unconditionally extracts a first candidate, so an empty source raises
`StopIteration`; on success `self._values = copy(value)` shares the source's
content (returned as the second component).  `shuffle=False` throughout (no
claim involves shuffling). -/
def parameterRangeInit (value : PValue) : Except PErr (PValue × PValue) :=
  if isIterable value = false then .error .typeError
  else
    match pyIter value with
    | .error e => .error e
    | .ok [] => .error .stopIteration
    | .ok (x :: _) => .ok (x, value)

/-- Python `len` of a constructed `ParameterRange`: `len(self._values)`. -/
def parameterRangeLen (r : PValue × PValue) : Except PErr Nat :=
  pyLen r.2

/-- Insert an entry into an assoc spine sorted by key (helper for the
dict-equality normal form). -/
def insertT (k : String) (v : PValue) : PTree → PTree
  | .nil => .cons k v .nil
  | .cons k2 v2 rest =>
      if strLe k k2 then .cons k v (.cons k2 v2 rest) else .cons k2 v2 (insertT k v rest)

/-- Sort an assoc spine by key (helper for the dict-equality normal form). -/
def sortT : PTree → PTree
  | .nil => .nil
  | .cons k v rest => insertT k v (sortT rest)

mutual
/-- Normal form for Python `==` over the modelled kinds: mappings compare
order-insensitively and a `ParameterSet` compares equal to a plain `dict`
with the same content (dict `__eq__` is inherited), so both are normalised to
a key-sorted `.tree`; lists, range candidate sequences and all scalars
compare structurally.  References, distributions and unrecognised objects use
object identity in Python; structural equality of the normal form is the
pure-model proxy (no claim compares those kinds). -/
def normV : PValue → PValue
  | .tree t => .tree (sortT (normT t))
  | .dict d => .tree (sortT (normT d))
  | .list l => .list (normL l)
  | .range vs => .range (normL vs)
  | v => v

/-- Normalise every element of a list. -/
def normL : PList → PList
  | .nil => .nil
  | .cons v rest => .cons (normV v) (normL rest)

/-- Normalise every value of an assoc spine. -/
def normT : PTree → PTree
  | .nil => .nil
  | .cons k v rest => .cons k (normV v) (normT rest)
end

/-- Python `==` between two parameter values (see `normV`). -/
def pyEqV (a b : PValue) : Bool :=
  normV a == normV b

/-- Python `list.index(x)` position: index of the first element comparing
`==`-equal to `x` (equal to the length when there is none — the caller checks
and raises `ValueError`). -/
def pyIdxOf (vs : List PValue) (v : PValue) : Nat :=
  vs.findIdx (fun c => pyEqV c v)

/-- Sorted range keys, as computed by `range_keys(); range_keys.sort()` in
`parameter_space_dimension_labels` and `parameter_space_index` (Python sorts
strings lexicographically by code point, which is `strLe`). -/
def sortedRangeKeys (t : PTree) : List String :=
  List.insertionSort (fun a b => strLe a b = true) (rangeKeys t)

/-- The class attribute `non_parameter_attributes` of `ParameterSet`.
Beyond being listed, these names are genuinely present as attributes of
every constructed instance: `__init__` installs `_url`, `label`, `names`
and `parameters` through `object.__setattr__` (its `__setattr__`
special-cases exactly the names in this list), and `flat`, `flatten` and
`non_parameter_attributes` itself are class attributes — so normal
attribute lookup finds every one of them *before* `__getattr__` ever
consults the dict entries. -/
def nonParameterAttributes : List String :=
  ["_url", "label", "names", "parameters", "flat", "flatten",
   "non_parameter_attributes"]

/-- Python keywords: `eval('self.' + key)` is a `SyntaxError` (not an
attribute access) when a component of `key` is a keyword, since
`self.<component>` parses only when the component is an identifier. -/
def pyKeywords : List String :=
  ["False", "None", "True", "and", "as", "assert", "async", "await",
   "break", "class", "continue", "def", "del", "elif", "else", "except",
   "finally", "for", "from", "global", "if", "import", "in", "is",
   "lambda", "nonlocal", "not", "or", "pass", "raise", "return", "try",
   "while", "with", "yield"]

/-- Is this string an identifier, so that `self.<s>` parses and evaluates
as one attribute access?  ASCII letters, digits and underscore, not
starting with a digit, and not a keyword.  (Python also admits some
non-ASCII identifiers; restricting to ASCII only narrows the hypotheses of
the theorems below.) -/
def isPyIdent (s : String) : Bool :=
  if s ∈ pyKeywords then false
  else
    match s.data with
    | [] => false
    | c :: rest => (c.isAlpha || c == '_') && rest.all (fun d => d.isAlphanum || d == '_')

/-- Attribute-chain lookup over path components as Python resolves
`eval('obj.' + dotted_path)` on `ParameterSet`s: each step is `getattr`,
and `getattr` performs *normal* attribute lookup first — finding the
genuine instance attributes installed by `__init__` (`label`, `_url`,
`names`, `parameters`) and the class attributes (`flat`, `flatten`, every
`dict` method, …) — and only when that fails calls
`ParameterSet.__getattr__`, which returns the dict entry, or re-raises
`AttributeError` through `__getattribute__` for a missing key.  The table
`attrs` maps each genuinely-present attribute name to its modelled value.
A genuine attribute reached mid-path (`None`, a string, a bound method —
none of them `ParameterSet`s) admits no further parameter descent, and
`getattr` on a non-`ParameterSet` leaf likewise fails for the key
components occurring in the theorems below. -/
def attrGetPyP (attrs : String → Option PValue) : PTree → List String → Except PErr PValue
  | _, [] => .error .attributeError
  | t, [k] =>
      match attrs k with
      | some v => .ok v
      | none =>
          match lookup1 t k with
          | some v => .ok v
          | none => .error .attributeError
  | t, k :: rest =>
      match attrs k with
      | some _ => .error .attributeError
      | none =>
          match lookup1 t k with
          | none => .error .attributeError
          | some (.tree sub) => attrGetPyP attrs sub rest
          | some _ => .error .attributeError

/-- Dotted-string shadow-aware attribute chain (`eval('obj.' + name)`). -/
def attrGetPy (attrs : String → Option PValue) (t : PTree) (name : String) :
    Except PErr PValue :=
  attrGetPyP attrs t (splitDots name)

/-- The minimal genuine-attribute table of every constructed
`ParameterSet`: each name in `non_parameter_attributes` resolves to a
genuine attribute (`label` is `None` or the label string, `names` and
`parameters` are bound methods, …) — all outside the parameter-value
kinds, hence modelled opaquely.  The real table is larger still (every
`dict` and `object` method); the theorems below quantify over the table,
so any enlargement is covered. -/
def shadowTable : String → Option PValue := fun k =>
  if k ∈ nonParameterAttributes then some (.other 0) else none

/-- A space whose single Range axis sits under the shadowed key `label`:
`ParameterSet({'label': ParameterRange([1, 2])})` — accepted by the
constructor, since `check_validity` rejects only `parameters`/`names`. -/
def shadowSpace : PTree :=
  .cons "label" (.range (.cons (.int 1) (.cons (.int 2) .nil))) .nil

/-- The key loop of `ParameterSpace.parameter_space_index`: for each sorted
range key, fetch the point's value by `eval('current_experiment.' + key)`,
fetch this space's object by `eval('self.' + key)` and read its `_values`
(an `AttributeError` when the attribute chain found something that is not
a `ParameterRange` — in particular a genuine attribute shadowing the key;
a `ParameterSet` result would instead forward `._values` to its own dict
entries, a corner no theorem below touches since at every use the result
is a `ParameterRange` by proof or hypothesis), and record
`list(values).index(value)`; a value absent from the candidates raises the
"not within the ParameterSpace" `ValueError`, modelled as
`pointNotInSpace`.  Only `ValueError` is caught in the source, so
`AttributeError` propagates. -/
def psIndexGo (attrs : String → Option PValue) (t pt : PTree) :
    List String → Except PErr (List Nat)
  | [] => .ok []
  | key :: rest => do
      let value ← attrGetPy attrs pt key
      let rv ← attrGetPy attrs t key
      match rv with
      | .range vs =>
          let i := pyIdxOf vs.toList value
          if i < vs.toList.length then do
            let is ← psIndexGo attrs t pt rest
            .ok (i :: is)
          else .error .pointNotInSpace
      | _ => .error .attributeError

/-- The `ParameterSpace.parameter_space_index` method over the genuine
attribute table `attrs` (the returned tuple is modelled as a list of
coordinates). -/
def parameterSpaceIndex (attrs : String → Option PValue) (t pt : PTree) :
    Except PErr (List Nat) :=
  psIndexGo attrs t pt (sortedRangeKeys t)

/-- The loop of `ParameterSpace.num_conditions`: `n *= len(self[key])` over
`range_keys()`. -/
def numConditionsGo (t : PTree) : List String → Nat → Except PErr Nat
  | [], n => .ok n
  | k :: rest, n => do
      let rv ← psGet t k
      let len ← pyLen rv
      numConditionsGo t rest (n * len)

/-- The `ParameterSpace.num_conditions` method. -/
def numConditions (t : PTree) : Except PErr Nat :=
  numConditionsGo t (rangeKeys t) 1

/-- Reasoning helper: the length of one axis as `num_conditions` computes it
(`len(self[key])`). -/
def axisLen (t : PTree) (k : String) : Except PErr Nat := do
  let rv ← psGet t k
  pyLen rv

/-- Total variant of `axisLen` (defaulting to `0` on error), used to state
map/product characterisations; the lemmas using it also establish that no
error occurs. -/
def axisLenN (t : PTree) (k : String) : Nat :=
  match axisLen t k with
  | .ok n => n
  | .error _ => 0

/-- The loop of `ParameterSpace.parameter_space_dimension_labels` over the
sorted range keys: `dim.append(len(eval('self.' + key)))`,
`label.append(key)`. -/
def psDimGo (t : PTree) : List String → Except PErr (List Nat × List String)
  | [] => .ok ([], [])
  | key :: rest => do
      let rv ← attrGetS t key
      let len ← pyLen rv
      let dl ← psDimGo t rest
      .ok (len :: dl.1, key :: dl.2)

/-- The `ParameterSpace.parameter_space_dimension_labels` method. -/
def parameterSpaceDimensionLabels (t : PTree) : Except PErr (List Nat × List String) :=
  psDimGo t (sortedRangeKeys t)

/-- The inner loop of the *reuse* branch of `iter_inner_range_keys` for one
tree received from the recursive generator: for each candidate value,
`tmp[keys[0]] = val` mutates the current object; if the result no longer
`_is_space()`, `tmp` is rebound to a fresh `ParameterSet(tmp)` (runtime class
`ParameterSet`, tag `false`) and that object is what is yielded and mutated
by the following step.  Each list entry is one yield: (runtime-class tag,
content at yield time). -/
def runVals (k : String) : Bool × PTree → List PValue → Except PErr (List (Bool × PTree))
  | _, [] => .ok []
  | st, v :: vs => do
      let t' ← psSetItem st.2 k v
      let st' ←
        if isSpace t' then pure (st.1, t')
        else do
          let c ← psInitTree t'
          pure ((false : Bool), c)
      let rest ← runVals k st' vs
      .ok (st' :: rest)

/-- The inner loop of the *copy* branch of `iter_inner_range_keys`:
`tmp_copy = tmp.tree_copy()` (re-classified by `tree_copy`, hence tagged by
`_is_space()` *before* the candidate is stored), then
`tmp_copy[keys[0]] = val`, and then the source's
`if not tmp_copy._is_space(): tmp = ParameterSet(tmp)` — which demotes and
rebinds `tmp`, not the `tmp_copy` that is about to be yielded. -/
def copyVals (k : String) : Bool × PTree → List PValue → Except PErr (List (Bool × PTree))
  | _, [] => .ok []
  | tmpSt, v :: vs => do
      let cp := treeCopy tmpSt.2
      let tC ← psSetItem cp.2 k v
      let tmpSt' ←
        if isSpace tC then pure tmpSt
        else do
          let c ← psInitTree tmpSt.2
          pure ((false : Bool), c)
      let rest ← copyVals k tmpSt' vs
      .ok ((cp.1, tC) :: rest)

/-- Concatenation of the per-received-tree yields of one recursion level of
`iter_inner_range_keys`. -/
def overStates (k : String) (vals : List PValue) (copy : Bool) :
    List (Bool × PTree) → Except PErr (List (Bool × PTree))
  | [] => .ok []
  | st :: rest => do
      let a ← if copy then copyVals k st vals else runVals k st vals
      let b ← overStates k vals copy rest
      .ok (a ++ b)

/-- The `ParameterSpace.iter_inner_range_keys` generator, as the list of its
yields (tag = runtime class of the yielded object, `true` =
`ParameterSpace`).  With no keys left it yields one `self.tree_copy()`;
otherwise it recurses over the remaining keys (the recursive call always uses
the default `copy=False`) and, for each received tree, iterates the
candidates of `self[keys[0]]` (looked up on `self`, not on the received
tree).  In the source, errors arising while producing later inner yields
interleave lazily with the outer loop; this model sequences the inner level
first, which is observationally identical whenever the iteration as a whole
succeeds — the situation every theorem below hypothesises. -/
def iterInnerRangeKeys (t : PTree) : List String → Bool → Except PErr (List (Bool × PTree))
  | [], _ => .ok [treeCopy t]
  | k :: rest, copy => do
      let inner ← iterInnerRangeKeys t rest false
      let rv ← psGet t k
      let vals ← pyIter rv
      overStates k vals copy inner

/-- The `ParameterSpace.iter_inner` method: full-axis cartesian iteration
over `range_keys()`. -/
def iterInner (t : PTree) (copy : Bool) : Except PErr (List (Bool × PTree)) :=
  iterInnerRangeKeys t (rangeKeys t) copy

/-- Does the key avoid the path separator?  The library's lexical convention:
the separator must not appear inside a single key component. -/
def dotFree (k : String) : Bool :=
  k.data.all (fun c => c ≠ '.')

/-- Do two component paths diverge?  True when the paths differ at some
position where both are defined, so that neither is a prefix of the other;
assignments at one path then cannot affect lookups at the other. -/
def noPref : List String → List String → Bool
  | [], _ => false
  | _ :: _, [] => false
  | a :: as, b :: bs => if a = b then noPref as bs else true

/-- A well-formed dict key: dot-free and not one of the constructor-rejected
`invalid_names`. -/
def wfKey (k : String) : Bool :=
  dotFree k && k ≠ "parameters" && k ≠ "names"

mutual
/-- Well-formedness of a value as it occurs inside a constructor-built
`ParameterSet`: nested mappings are `ParameterSet`s (the constructor promotes
plain dicts, so a raw `.dict` can only enter through `__setitem__`), and the
candidate values of a `ParameterRange` are themselves well-formed (they get
stored into trees during space iteration).  List contents are unconstrained:
no modelled operation descends into a list. -/
def wfV : PValue → Bool
  | .tree t => wfT t
  | .dict _ => false
  | .range vs => wfL vs
  | _ => true

/-- Well-formedness of every element of a candidate list. -/
def wfL : PList → Bool
  | .nil => true
  | .cons v rest => wfV v && wfL rest

/-- Well-formedness of a tree: at every level the keys are well-formed and
distinct (Python dicts cannot hold duplicate keys) and the values are
well-formed. -/
def wfT : PTree → Bool
  | .nil => true
  | .cons k v rest => wfKey k && (lookup1 rest k).isNone && wfV v && wfT rest
end

/-!  Concrete instance trees used by the claim theorems and witnesses. -/

/-- The spec's cyclic tree `{a: ref('b'), b: ref('a')}`. -/
def cycTree : PTree :=
  .cons "a" (.ref "b" .nil) (.cons "b" (.ref "a" .nil) .nil)

/-- The spec's resolution example
`{p1: 2, p2: 4, p3: ref('p1') + ref('p2') + 1, p4: ref('p3') + 1}`.  The
operator chaining is what the fluent `__add__` calls build: `p3` is
`ref('p1')` with operations `[(add, ref('p2')), (add, 1)]`. -/
def exTree : PTree :=
  .cons "p1" (.int 2) (.cons "p2" (.int 4)
    (.cons "p3" (.ref "p1" (.cons .add (.ref "p2" .nil) (.cons .add (.int 1) .nil)))
    (.cons "p4" (.ref "p3" (.cons .add (.int 1) .nil)) .nil)))

/-- The reference-free resolution result of `exTree`. -/
def exFinal : PTree :=
  .cons "p1" (.int 2) (.cons "p2" (.int 4) (.cons "p3" (.int 7) (.cons "p4" (.int 8) .nil)))

/-- A space with a single Range axis `{x: ParameterRange([1, 2])}`. -/
def spaceOneAxis : PTree :=
  .cons "x" (.range (.cons (.int 1) (.cons (.int 2) .nil))) .nil

/-- A space with Range axes of lengths 2 and 3
`{r1: ParameterRange([10, 20]), r2: ParameterRange([1, 2, 3])}`. -/
def space23 : PTree :=
  .cons "r1" (.range (.cons (.int 10) (.cons (.int 20) .nil)))
    (.cons "r2" (.range (.cons (.int 1) (.cons (.int 2) (.cons (.int 3) .nil)))) .nil)

/-- A space whose Ranges appear in non-lexicographic insertion order
`{b: ParameterRange([1]), a: ParameterRange([2])}`. -/
def treeBA : PTree :=
  .cons "b" (.range (.cons (.int 1) .nil)) (.cons "a" (.range (.cons (.int 2) .nil)) .nil)

/-!  Structural eliminators.  The `induction` tactic does not handle mutual
inductive families directly, so spine-only eliminators are derived from the
mutual recursors (the motives of the other family members are trivial). -/

theorem PTree.treeIndOn {motive : PTree → Prop} (nil : motive .nil)
    (cons : ∀ k v rest, motive rest → motive (.cons k v rest)) : ∀ t, motive t :=
  PTree.rec (motive_1 := fun _ => True) (motive_2 := fun _ => True)
    (motive_3 := motive) (motive_4 := fun _ => True)
    (fun _ => trivial) (fun _ => trivial) (fun _ _ => trivial) (fun _ _ => trivial)
    (fun _ _ => trivial) (fun _ _ => trivial) (fun _ => trivial) (fun _ _ _ => trivial)
    (fun _ => trivial)
    trivial (fun _ _ _ _ => trivial)
    nil (fun k v rest _ ih => cons k v rest ih)
    trivial (fun _ _ _ _ _ => trivial)

theorem PList.listIndOn {motive : PList → Prop} (nil : motive .nil)
    (cons : ∀ v rest, motive rest → motive (.cons v rest)) : ∀ l, motive l :=
  PList.rec (motive_1 := fun _ => True) (motive_2 := motive)
    (motive_3 := fun _ => True) (motive_4 := fun _ => True)
    (fun _ => trivial) (fun _ => trivial) (fun _ _ => trivial) (fun _ _ => trivial)
    (fun _ _ => trivial) (fun _ _ => trivial) (fun _ => trivial) (fun _ _ _ => trivial)
    (fun _ => trivial)
    nil (fun v rest _ ih => cons v rest ih)
    trivial (fun _ _ _ _ _ => trivial)
    trivial (fun _ _ _ _ _ => trivial)

/-!  Basic lemmas about the spine operations. -/

theorem PList.length_toList (l : PList) : l.toList.length = l.length := by
  induction l using PList.listIndOn with
  | nil => rfl
  | cons v rest ih => simp [PList.toList, PList.length, ih]; omega

theorem PTree.length_keys (t : PTree) : t.keys.length = t.length := by
  induction t using PTree.treeIndOn with
  | nil => rfl
  | cons k v rest ih => simp [PTree.keys, PTree.length, ih]; omega

theorem lookup1_dictSet_self (t : PTree) (k : String) (v : PValue) :
    lookup1 (dictSet t k v) k = some v := by
  induction t using PTree.treeIndOn with
  | nil => simp [dictSet, lookup1]
  | cons k2 w rest ih =>
      by_cases h : k2 = k
      · simp [dictSet, lookup1, h]
      · simp [dictSet, lookup1, h, ih]

theorem lookup1_dictSet_ne (t : PTree) (k k2 : String) (v : PValue) (h : k ≠ k2) :
    lookup1 (dictSet t k v) k2 = lookup1 t k2 := by
  induction t using PTree.treeIndOn with
  | nil => simp [dictSet, lookup1, h]
  | cons k3 w rest ih =>
      by_cases h3 : k3 = k
      · simp [dictSet, lookup1, h3, h]
      · simp [dictSet, lookup1, h3, ih]

theorem lookup1_none_iff_not_mem_keys (t : PTree) (k : String) :
    lookup1 t k = none ↔ k ∉ t.keys := by
  induction t using PTree.treeIndOn with
  | nil => simp [lookup1, PTree.keys]
  | cons k2 v rest ih =>
      by_cases h : k2 = k
      · simp [lookup1, PTree.keys, h]
      · simp [lookup1, PTree.keys, h, ih, Ne.symm h]

theorem lookup1_append_of_none {a : PTree} (b : PTree) {k : String}
    (h : lookup1 a k = none) : lookup1 (a.append b) k = lookup1 b k := by
  induction a using PTree.treeIndOn with
  | nil => simp [PTree.append]
  | cons k2 v rest ih =>
      by_cases h2 : k2 = k
      · simp [lookup1, h2] at h
      · simp [lookup1, h2] at h
        simp [PTree.append, lookup1, h2, ih h]

theorem dictSet_eq_append_of_none {t : PTree} {k : String} (v : PValue)
    (h : lookup1 t k = none) : dictSet t k v = t.append (.cons k v .nil) := by
  induction t using PTree.treeIndOn with
  | nil => simp [dictSet, PTree.append]
  | cons k2 w rest ih =>
      by_cases h2 : k2 = k
      · simp [lookup1, h2] at h
      · simp [lookup1, h2] at h
        simp [dictSet, PTree.append, h2, ih h]

theorem PTree.append_assoc (a b c : PTree) :
    (a.append b).append c = a.append (b.append c) := by
  induction a using PTree.treeIndOn with
  | nil => simp [PTree.append]
  | cons k v rest ih => simp [PTree.append, ih]

/-!  Path-splitting lemmas. -/

theorem splitDotsAux_no_dot :
    ∀ (cs acc : List Char), (∀ c ∈ cs, c ≠ '.') → splitDotsAux cs acc = [acc.reverse ++ cs]
  | [], acc, _ => by simp [splitDotsAux]
  | c :: cs, acc, h => by
      have hc : c ≠ '.' := h c (by simp)
      have ih := splitDotsAux_no_dot cs (c :: acc) (fun c2 hc2 => h c2 (by simp [hc2]))
      simp only [splitDotsAux, hc, if_false]
      rw [ih]
      simp

theorem splitDots_of_dotFree {k : String} (h : dotFree k = true) : splitDots k = [k] := by
  have h2 : ∀ c ∈ k.data, c ≠ '.' := by
    intro c hc
    have := List.all_eq_true.mp h c hc
    simpa using this
  simp [splitDots, splitDotsAux_no_dot k.data [] h2, List.asString]

/-!  Lexicographic order lemmas (for the sorted range keys). -/

theorem lexLeCh_total : ∀ a b : List Char, lexLeCh a b = true ∨ lexLeCh b a = true
  | [], _ => Or.inl rfl
  | _ :: _, [] => Or.inr rfl
  | a :: as, b :: bs => by
      rcases Nat.lt_trichotomy a.toNat b.toNat with h | h | h
      · exact Or.inl (by simp [lexLeCh, h])
      · rcases lexLeCh_total as bs with ih | ih
        · exact Or.inl (by simp [lexLeCh, h, ih])
        · exact Or.inr (by simp [lexLeCh, h.symm, ih])
      · exact Or.inr (by simp [lexLeCh, h])

theorem lexLeCh_trans :
    ∀ a b c : List Char, lexLeCh a b = true → lexLeCh b c = true → lexLeCh a c = true
  | [], _, _, _, _ => rfl
  | _ :: _, [], _, hab, _ => by simp [lexLeCh] at hab
  | _ :: _, _ :: _, [], _, hbc => by simp [lexLeCh] at hbc
  | a :: as, b :: bs, c :: cs, hab, hbc => by
      simp only [lexLeCh] at hab hbc ⊢
      rcases Nat.lt_trichotomy a.toNat b.toNat with h1 | h1 | h1
      · rcases Nat.lt_trichotomy b.toNat c.toNat with h2 | h2 | h2
        · simp [show a.toNat < c.toNat by omega]
        · simp [show a.toNat < c.toNat by omega]
        · simp [h2, show ¬ b.toNat < c.toNat by omega] at hbc
      · simp only [show ¬ a.toNat < b.toNat by omega, if_false,
          show ¬ b.toNat < a.toNat by omega] at hab
        rcases Nat.lt_trichotomy b.toNat c.toNat with h2 | h2 | h2
        · simp [show a.toNat < c.toNat by omega]
        · simp only [show ¬ b.toNat < c.toNat by omega, if_false,
            show ¬ c.toNat < b.toNat by omega] at hbc
          simp only [show ¬ a.toNat < c.toNat by omega, if_false,
            show ¬ c.toNat < a.toNat by omega]
          exact lexLeCh_trans as bs cs hab hbc
        · simp [h2, show ¬ b.toNat < c.toNat by omega] at hbc
      · simp [h1, show ¬ a.toNat < b.toNat by omega] at hab

theorem strLe_total (a b : String) : strLe a b = true ∨ strLe b a = true :=
  lexLeCh_total a.data b.data

theorem strLe_trans {a b c : String} (h1 : strLe a b = true) (h2 : strLe b c = true) :
    strLe a c = true :=
  lexLeCh_trans a.data b.data c.data h1 h2

/-!  Monadic reduction helpers for `Except`. -/

@[simp]
theorem exceptBind_ok {ε α β : Type} (a : α) (f : α → Except ε β) :
    (Except.ok a >>= f : Except ε β) = f a := rfl

@[simp]
theorem exceptBind_err {ε α β : Type} (e : ε) (f : α → Except ε β) :
    (Except.error e >>= f : Except ε β) = .error e := rfl

@[simp]
theorem exceptPure {ε α : Type} (a : α) : (pure a : Except ε α) = .ok a := rfl

theorem bind_ok_inv {ε α β : Type} {m : Except ε α} {f : α → Except ε β} {b : β}
    (h : (m >>= f) = .ok b) : ∃ a, m = .ok a ∧ f a = .ok b := by
  cases m with
  | error e => simp at h
  | ok a => exact ⟨a, rfl, by simpa using h⟩

theorem PTree.append_nilRight (a : PTree) : a.append .nil = a := by
  induction a using PTree.treeIndOn with
  | nil => rfl
  | cons k v rest ih => simp [PTree.append, ih]

/-!  Constructor lemmas. -/

theorem wfKey_spec {k : String} (h : wfKey k = true) :
    dotFree k = true ∧ k ≠ "parameters" ∧ k ≠ "names" := by
  simpa [wfKey, Bool.and_eq_true, and_assoc] using h

theorem checkValidity_ok_of_wfKey {k : String} (h : wfKey k = true) :
    checkValidity k = .ok () := by
  obtain ⟨-, h1, h2⟩ := wfKey_spec h
  simp [checkValidity, h1, h2]

theorem psPromote_ok {v : PValue} (h : wfV v = true) : psPromote v = .ok v := by
  cases v <;> simp_all [psPromote, wfV]

theorem psInitItems_id {d : PTree} (h : wfT d = true) : psInitItems d = .ok d := by
  induction d using PTree.treeIndOn with
  | nil => rfl
  | cons k v rest ih =>
      simp only [wfT, Bool.and_eq_true] at h
      obtain ⟨⟨⟨hk, -⟩, hv⟩, hrest⟩ := h
      simp [psInitItems, checkValidity_ok_of_wfKey hk, psPromote_ok hv, ih hrest]

theorem constructorFold_clean :
    ∀ (d acc : PTree), wfT d = true → (∀ k', k' ∈ d.keys → lookup1 acc k' = none) →
      constructorFold d acc = .ok (acc.append d) := by
  intro d
  induction d using PTree.treeIndOn with
  | nil =>
      intro acc _ _
      simp [constructorFold, PTree.append_nilRight]
  | cons k v rest ih =>
      intro acc h hacc
      simp only [wfT, Bool.and_eq_true] at h
      obtain ⟨⟨⟨hk, hnod⟩, -⟩, hrest⟩ := h
      have hlacc : lookup1 acc k = none := hacc k (by simp [PTree.keys])
      have hknotin : k ∉ rest.keys :=
        (lookup1_none_iff_not_mem_keys rest k).mp (Option.isNone_iff_eq_none.mp hnod)
      have hstep : constructorFold rest (dictSet acc k v)
          = .ok ((dictSet acc k v).append rest) := by
        refine ih (dictSet acc k v) hrest ?_
        intro k2 hk2
        have hne : k ≠ k2 := fun he => hknotin (he ▸ hk2)
        rw [lookup1_dictSet_ne acc k k2 v hne]
        exact hacc k2 (by simp [PTree.keys, hk2])
      have hres : (dictSet acc k v).append rest = acc.append (.cons k v rest) := by
        rw [dictSet_eq_append_of_none v hlacc, PTree.append_assoc]
        rfl
      simp [constructorFold, checkValidity_ok_of_wfKey hk,
        splitDots_of_dotFree (wfKey_spec hk).1, setP, hstep, hres]

theorem psInitTree_id {d : PTree} (h : wfT d = true) : psInitTree d = .ok d := by
  have h2 := constructorFold_clean d .nil h (fun k2 _ => rfl)
  simp only [psInitTree, psInitItems_id h, exceptBind_ok]
  simpa [PTree.append] using h2

theorem psInitItems_invalid :
    ∀ (d : PTree) (k : String), k ∈ d.keys → (k = "parameters" ∨ k = "names") →
      ∃ e, psInitItems d = .error e := by
  intro d
  induction d using PTree.treeIndOn with
  | nil => simp [PTree.keys]
  | cons k2 v rest ih =>
      intro k hk hbad
      simp only [PTree.keys, List.mem_cons] at hk
      by_cases hi : k2 = "parameters" ∨ k2 = "names"
      · exact ⟨.invalidName, by simp [psInitItems, checkValidity, hi]⟩
      · have hc : checkValidity k2 = .ok () := by simp [checkValidity, hi]
        rcases hk with rfl | hk
        · exact absurd hbad hi
        · cases hp : psPromote v with
          | error e => exact ⟨e, by simp [psInitItems, hc, hp]⟩
          | ok v2 =>
              obtain ⟨e, he⟩ := ih k hk hbad
              exact ⟨e, by simp [psInitItems, hc, hp, he]⟩

/-!  Labels of `parameter_space_dimension_labels` are exactly the keys
iterated. -/

theorem psDimGo_labels :
    ∀ (keys : List String) (t : PTree) (dims : List Nat) (labels : List String),
      psDimGo t keys = .ok (dims, labels) → labels = keys := by
  intro keys
  induction keys with
  | nil =>
      intro t dims labels h
      simp [psDimGo] at h
      exact h.2
  | cons k rest ih =>
      intro t dims labels h
      rw [psDimGo] at h
      obtain ⟨rv, h1, h⟩ := bind_ok_inv h
      obtain ⟨len, h2, h⟩ := bind_ok_inv h
      obtain ⟨dl, h3, h⟩ := bind_ok_inv h
      simp only [exceptPure, Except.ok.injEq, Prod.mk.injEq] at h
      rw [← h.2]
      exact congrArg (List.cons k) (ih t dl.1 dl.2 (by rw [h3]))

/-!  Helper: a lenient add along a clear path. -/

theorem addPathClear_nil : ∀ p : List String, addPathClear .nil p = true
  | [] => rfl
  | [_] => rfl
  | _ :: _ :: _ => rfl

theorem addPathClear_cons2 (t : PTree) (k c : String) (rest : List String) :
    addPathClear t (k :: c :: rest) =
      (match lookup1 t k with
       | none => true
       | some (.tree sub) => addPathClear sub (c :: rest)
       | some _ => false) := rfl

theorem flatAddP_clear :
    ∀ (path : List String) (t : PTree) (v : PValue), path ≠ [] →
      addPathClear t path = true →
      ∃ t2, flatAddP t path v = .ok t2 ∧ getP t2 path = .ok v
  | [], _, _, hne, _ => absurd rfl hne
  | [k], t, v, _, _ => ⟨dictSet t k v, rfl, by simp [getP, lookup1_dictSet_self]⟩
  | k :: c :: rest, t, v, _, hclear => by
      cases hl : lookup1 t k with
      | none =>
          obtain ⟨t2, h1, h2⟩ :=
            flatAddP_clear (c :: rest) .nil v (by simp) (addPathClear_nil _)
          refine ⟨dictSet t k (.tree t2), ?_, ?_⟩
          · simp [flatAddP, hl, h1]
          · simp [getP, lookup1_dictSet_self, h2]
      | some w =>
          rw [addPathClear_cons2, hl] at hclear
          cases w <;> simp at hclear
          rename_i sub
          obtain ⟨t2, h1, h2⟩ := flatAddP_clear (c :: rest) sub v (by simp) hclear
          refine ⟨dictSet t k (.tree t2), ?_, ?_⟩
          · simp [flatAddP, hl, h1]
          · simp [getP, lookup1_dictSet_self, h2]

/-!  Unfolding equations for the two-component path cases (the list patterns
of `getP`/`setP` overlap, so the autogenerated equations carry side
conditions; these `rfl` forms are unconditional). -/

theorem getP_cons2 (t : PTree) (k c : String) (rest : List String) :
    getP t (k :: c :: rest) =
      (match lookup1 t k with
       | none => .error .keyError
       | some (.tree sub) => getP sub (c :: rest)
       | some (.dict d) =>
           (match lookup1 d (joinDots (c :: rest)) with
            | some v => .ok v
            | none => .error .keyError)
       | some _ => .error .typeError) := rfl

theorem setP_cons2 (t : PTree) (k c : String) (rest : List String) (v : PValue) :
    setP t (k :: c :: rest) v =
      (match lookup1 t k with
       | none => .error .keyError
       | some (.tree sub) => do
           let sub2 ← setP sub (c :: rest) v
           .ok (dictSet t k (.tree sub2))
       | some (.dict d) => .ok (dictSet t k (.dict (dictSet d (joinDots (c :: rest)) v)))
       | some _ => .error .typeError) := rfl

theorem getP_one (t : PTree) (k : String) :
    getP t [k] =
      (match lookup1 t k with
       | some v => .ok v
       | none => .error .keyError) := rfl

theorem setP_one (t : PTree) (k : String) (v : PValue) :
    setP t [k] v = .ok (dictSet t k v) := rfl

theorem attrGetP_one (t : PTree) (k : String) :
    attrGetP t [k] =
      (match lookup1 t k with
       | some v => .ok v
       | none => .error .attributeError) := rfl

theorem attrGetP_cons2 (t : PTree) (k c : String) (rest : List String) :
    attrGetP t (k :: c :: rest) =
      (match lookup1 t k with
       | none => .error .attributeError
       | some (.tree sub) => attrGetP sub (c :: rest)
       | some _ => .error .attributeError) := rfl

/-!  Claim C1 and C2: reference resolution. -/

/-- Claim C1 (status: code_bug).  The claim states that on a tree whose
unresolved references form a cycle — in particular `{a: ref(b), b: ref(a)}`
— resolution terminates by failing with `ReferenceCycle`.  The code has no
such safeguard: evaluating a reference whose target is still a reference
returns the reference itself, so a pass over `cycTree` writes every
reference back unchanged (`onePass` is the identity), `find_references`
never becomes empty, and the `while True` loop of `replace_references` runs
forever — for every fuel bound the loop is still running (`none`), and it
never produces any error value. -/
theorem replaceReferences_cycle_diverges :
    (∀ fuel : Nat, replaceReferences fuel cycTree = none) ∧
    onePass cycTree (findReferences cycTree) = .ok cycTree ∧
    findReferences cycTree ≠ [] := by
  refine ⟨?_, by decide, by decide⟩
  intro fuel
  induction fuel with
  | zero => rfl
  | succ n ih =>
      have hstep : replaceReferences (n + 1) cycTree = replaceReferences n cycTree := rfl
      rw [hstep, ih]

/-- Claim C2 (status: confirmed).  Resolving
`{p1: 2, p2: 4, p3: ref(p1)+ref(p2)+1, p4: ref(p3)+1}` terminates (two
passes plus the empty final scan) in a reference-free tree with `p3 == 7`
and `p4 == 8`; and a reference whose target is itself a still-unresolved
reference — `p4`'s target `p3` on the first pass — is deferred (its
evaluation returns the reference itself rather than failing). -/
theorem replaceReferences_example_resolves :
    replaceReferences 3 exTree = some (.ok exFinal) ∧
    psGet exFinal "p3" = .ok (.int 7) ∧
    psGet exFinal "p4" = .ok (.int 8) ∧
    findReferences exFinal = [] ∧
    evaluate "p3" (.cons .add (.int 1) .nil) exTree
      = .ok (.ref "p3" (.cons .add (.int 1) .nil)) := by
  decide

/-!  Claim C7: runtime class of the yields of full-axis iteration. -/

/-- Claim C7 (status: code_bug).  The claim states that under either copy
policy every yielded tree that no longer contains a Range axis is surfaced
as a plain tree.  Under the *reuse* policy this holds (both yields of
`{x: ParameterRange([1,2])}` are tagged as plain `ParameterSet`s), but under
the *copy* policy the source demotes the wrong variable
(`tmp = ParameterSet(tmp)` instead of `tmp_copy`): every yielded copy keeps
the `ParameterSpace` class assigned by `tree_copy` before the candidate was
stored, even though its content no longer contains any Range. -/
theorem iterInner_copy_keeps_space_type :
    iterInner spaceOneAxis true =
      .ok [(true, .cons "x" (.int 1) .nil), (true, .cons "x" (.int 2) .nil)] ∧
    rangeKeys (.cons "x" (.int 1) .nil) = [] ∧
    rangeKeys (.cons "x" (.int 2) .nil) = [] ∧
    isSpace (.cons "x" (.int 1) .nil) = false ∧
    isSpace (.cons "x" (.int 2) .nil) = false ∧
    iterInner spaceOneAxis false =
      .ok [(false, .cons "x" (.int 1) .nil), (false, .cons "x" (.int 2) .nil)] := by
  decide

/-!  Counterexamples for the corrected claims. -/

/-- Counterexample to claim C5 as stated: dotted `get` through an
intermediate that exists but is not a tree raises `TypeError`, not the
claimed `KeyNotFound` — on `{a: 5}`, `get('a.b')` is `5['b']`. -/
theorem getP_nonTree_typeError_cex :
    psGet (.cons "a" (.int 5) .nil) "a.b" = .error .typeError ∧
    PErr.typeError ≠ PErr.keyError := by
  decide

/-- Counterexample to claim C6 as stated: `range_keys()` returns traversal
order, not lexicographically sorted order — on `{b: Range, a: Range}` it
returns `['b', 'a']`. -/
theorem rangeKeys_unsorted_cex :
    rangeKeys treeBA = ["b", "a"] ∧
    sortedRangeKeys treeBA = ["a", "b"] ∧
    rangeKeys treeBA ≠ sortedRangeKeys treeBA := by
  decide

/-- Counterexample to claim C8 as stated: `label` and `flatten` are accepted
as parameter keys by the constructor — `check_validity` rejects only
`parameters` and `names` — and even those two can be stored through
`__setitem__`, which performs no check at all. -/
theorem reserved_label_key_accepted_cex :
    psInitTree (.cons "label" (.int 5) .nil) = .ok (.cons "label" (.int 5) .nil) ∧
    psInitTree (.cons "flatten" (.int 5) .nil) = .ok (.cons "flatten" (.int 5) .nil) ∧
    psSetItem .nil "parameters" (.int 1) = .ok (.cons "parameters" (.int 1) .nil) := by
  decide

/-- Counterexample to claim C9 as stated: the constructor stores a leaf of
an unrecognised kind as-is instead of rejecting it with
`UnsupportedValueType`. -/
theorem unrecognized_leaf_accepted_cex :
    psInitTree (.cons "k" (.other 0) .nil) = .ok (.cons "k" (.other 0) .nil) := by
  decide

/-- Counterexample to claim C10 as stated: a non-empty string satisfies the
iteration protocol, yet `ParameterRange('ab')` fails (`_isiterable`
deliberately excludes anything with a `lower` attribute), so construction
does not succeed for every non-empty finite iterable. -/
theorem parameterRangeInit_string_cex :
    hasIterProtocol (.str "ab") = true ∧
    pyIter (.str "ab") = .ok [.str "a", .str "b"] ∧
    parameterRangeInit (.str "ab") = .error .typeError := by
  decide


/-!  Amended claim theorems. -/

/-- Claim C5 (status: corrected).  As stated the claim is wrong in one place:
an intermediate that exists but is not a tree makes dotted `get` raise
`TypeError`, not `KeyNotFound` (see `getP_nonTree_typeError_cex`).  Amended:
dotted `get` fails with `KeyNotFound` when an intermediate component is
absent and with `TypeError` when it is present but neither a `ParameterSet`
nor a plain `dict`; strict `set` fails with `KeyNotFound` when an
intermediate component is absent; and the lenient `flat_add` creates every
missing intermediate tree on demand and stores the value where strict `set`
would have failed. -/
theorem dotted_access_error_spec :
    (∀ (t : PTree) (k c : String) (rest : List String),
        lookup1 t k = none → getP t (k :: c :: rest) = .error .keyError) ∧
    (∀ (t : PTree) (k c : String) (rest : List String) (v : PValue),
        lookup1 t k = some v → (∀ sub, v ≠ .tree sub) → (∀ d, v ≠ .dict d) →
        getP t (k :: c :: rest) = .error .typeError) ∧
    (∀ (t : PTree) (k c : String) (rest : List String) (v : PValue),
        lookup1 t k = none → setP t (k :: c :: rest) v = .error .keyError) ∧
    (∀ (path : List String) (t : PTree) (v : PValue),
        path ≠ [] → addPathClear t path = true →
        ∃ t2, flatAddP t path v = .ok t2 ∧ getP t2 path = .ok v) := by
  refine ⟨?_, ?_, ?_, flatAddP_clear⟩
  · intro t k c rest h
    rw [getP_cons2, h]
  · intro t k c rest v h htree hdict
    rw [getP_cons2, h]
    cases v <;> first
      | rfl
      | exact absurd rfl (htree _)
      | exact absurd rfl (hdict _)
  · intro t k c rest v h
    rw [setP_cons2, h]

/-- Witness for `dotted_access_error_spec` at concrete inputs. -/
theorem dotted_access_error_spec_witness :
    getP .nil ["a", "b"] = .error .keyError ∧
    getP (.cons "a" (.str "s") .nil) ["a", "b"] = .error .typeError ∧
    setP .nil ["a", "b"] (.int 1) = .error .keyError ∧
    (∃ t2, flatAddP .nil ["a", "b"] (.int 7) = .ok t2 ∧
      getP t2 ["a", "b"] = .ok (.int 7)) := by
  refine ⟨?_, ?_, ?_, ?_⟩
  · exact dotted_access_error_spec.1 .nil "a" "b" [] (by decide)
  · exact dotted_access_error_spec.2.1 (.cons "a" (.str "s") .nil) "a" "b" [] (.str "s")
      (by decide) (fun _ h => PValue.noConfusion h) (fun _ h => PValue.noConfusion h)
  · exact dotted_access_error_spec.2.2.1 .nil "a" "b" [] (.int 1) (by decide)
  · exact dotted_access_error_spec.2.2.2 ["a", "b"] .nil (.int 7) (by decide) (by decide)

/-- Claim C6 (status: corrected).  As stated the claim is wrong:
`range_keys()` itself applies no sorting (see `rangeKeys_unsorted_cex`).
Amended: `range_keys()` returns the dotted path of every leaf that is a
`ParameterRange`, in `flat()` traversal order; the deterministic
lexicographic sorting happens at the call sites
(`parameter_space_dimension_labels` / `parameter_space_index`), whose sorted
key list is a permutation of `range_keys()`, is sorted by code point, and is
exactly the label list those callers report. -/
theorem rangeKeys_spec :
    (∀ (t : PTree) (k : String),
        k ∈ rangeKeys t ↔ ∃ v, (k, v) ∈ nestedDictWalk t ∧ isRangeV v = true) ∧
    (∀ t : PTree, (sortedRangeKeys t).Perm (rangeKeys t)) ∧
    (∀ t : PTree, List.Sorted (fun a b => strLe a b = true) (sortedRangeKeys t)) ∧
    (∀ (t : PTree) (dims : List Nat) (labels : List String),
        parameterSpaceDimensionLabels t = .ok (dims, labels) →
        labels = sortedRangeKeys t) := by
  refine ⟨?_, ?_, ?_, ?_⟩
  · intro t k
    simp only [rangeKeys, List.mem_map, List.mem_filter]
    constructor
    · rintro ⟨⟨k2, v⟩, ⟨hmem, hr⟩, rfl⟩
      exact ⟨v, hmem, hr⟩
    · rintro ⟨v, hmem, hr⟩
      exact ⟨(k, v), ⟨hmem, hr⟩, rfl⟩
  · intro t
    exact List.perm_insertionSort _ _
  · intro t
    haveI h1 : IsTotal String (fun a b => strLe a b = true) := ⟨strLe_total⟩
    haveI h2 : IsTrans String (fun a b => strLe a b = true) :=
      ⟨fun _ _ _ hab hbc => strLe_trans hab hbc⟩
    exact List.sorted_insertionSort _ _
  · intro t dims labels h
    exact psDimGo_labels _ t dims labels h

/-- Witness for `rangeKeys_spec` at a concrete space. -/
theorem rangeKeys_spec_witness :
    ["a", "b"] = sortedRangeKeys treeBA :=
  rangeKeys_spec.2.2.2 treeBA [1, 1] ["a", "b"] (by decide)

/-- Claim C8 (status: corrected).  As stated the claim is wrong: `label` and
`flatten` are perfectly usable as keys (see
`reserved_label_key_accepted_cex`).  Amended: the only reserved names are
`invalid_names = ['parameters', 'names']`; the constructor rejects any
initialiser containing one of them as a key and accepts every other name,
while item assignment (`__setitem__`) performs no validity check at all, so
even the reserved pair can be stored that way. -/
theorem reserved_names_spec :
    (∀ k : String, (k = "parameters" ∨ k = "names") →
        checkValidity k = .error .invalidName) ∧
    (∀ k : String, k ≠ "parameters" → k ≠ "names" → checkValidity k = .ok ()) ∧
    (∀ (d : PTree) (k : String), k ∈ d.keys → (k = "parameters" ∨ k = "names") →
        ∃ e, psInitTree d = .error e) ∧
    (∀ (t : PTree) (v : PValue),
        psSetItem t "parameters" v = .ok (dictSet t "parameters" v)) := by
  refine ⟨?_, ?_, ?_, ?_⟩
  · intro k h
    simp [checkValidity, h]
  · intro k h1 h2
    simp [checkValidity, h1, h2]
  · intro d k hk hbad
    obtain ⟨e, he⟩ := psInitItems_invalid d k hk hbad
    exact ⟨e, by simp [psInitTree, he]⟩
  · intro t v
    rw [psSetItem, show splitDots "parameters" = ["parameters"] from by decide]
    rfl

/-- Witness for `reserved_names_spec` at concrete inputs. -/
theorem reserved_names_spec_witness :
    checkValidity "names" = .error .invalidName ∧
    checkValidity "label" = .ok () ∧
    (∃ e, psInitTree (.cons "x" (.int 0) (.cons "names" (.int 1) .nil)) = .error e) := by
  refine ⟨reserved_names_spec.1 "names" (Or.inr rfl),
    reserved_names_spec.2.1 "label" (by decide) (by decide),
    reserved_names_spec.2.2.1 (.cons "x" (.int 0) (.cons "names" (.int 1) .nil)) "names"
      (by decide) (Or.inr rfl)⟩

/-- Claim C9 (status: corrected).  As stated the claim is wrong: the
constructor performs no leaf-kind validation whatsoever (see
`unrecognized_leaf_accepted_cex`).  Amended: for every mapping with
well-formed keys the constructor succeeds and stores each value unchanged —
whatever its kind, recognised or not — except that plain nested `dict`s are
promoted to `ParameterSet`s; only a non-mapping top-level initialiser is
rejected (with `TypeError`, not `UnsupportedValueType`). -/
theorem psInitTree_no_leaf_validation :
    (∀ d : PTree, wfT d = true → psInitTree d = .ok d) ∧
    psInitTree (.cons "k" (.dict .nil) .nil) = .ok (.cons "k" (.tree .nil) .nil) := by
  exact ⟨fun d h => psInitTree_id h, by decide⟩

/-- Witness for `psInitTree_no_leaf_validation`: a mapping whose leaves are
an unrecognised object, a reference and a distribution is accepted
unchanged. -/
theorem psInitTree_no_leaf_validation_witness :
    psInitTree (.cons "u" (.other 7) (.cons "r" (.ref "x" .nil) (.cons "d2" (.dist 3) .nil)))
      = .ok (.cons "u" (.other 7) (.cons "r" (.ref "x" .nil) (.cons "d2" (.dist 3) .nil))) :=
  psInitTree_no_leaf_validation.1 _ (by decide)

/-- Python `len` of an iterable equals the number of elements `for` yields
over it (for the kinds `_isiterable` accepts). -/
theorem pyLen_of_pyIter {v : PValue} {l : List PValue} (hi : isIterable v = true)
    (h : pyIter v = .ok l) : pyLen v = .ok l.length := by
  cases v with
  | list pl =>
      simp only [pyIter, Except.ok.injEq] at h
      subst h
      simp [pyLen, PList.length_toList]
  | tree t =>
      simp only [pyIter, Except.ok.injEq] at h
      subst h
      simp [pyLen, PTree.length_keys]
  | dict d =>
      simp only [pyIter, Except.ok.injEq] at h
      subst h
      simp [pyLen, PTree.length_keys]
  | range vs =>
      simp only [pyIter, Except.ok.injEq] at h
      subst h
      simp [pyLen, PList.length_toList]
  | int n => simp [isIterable] at hi
  | str s => simp [isIterable] at hi
  | dist id => simp [isIterable] at hi
  | ref p o => simp [isIterable] at hi
  | other id => simp [isIterable] at hi

/-- Claim C10 (status: corrected).  As stated the claim is wrong for
strings: a non-empty string satisfies the iteration protocol yet
construction fails with `TypeError` (see `parameterRangeInit_string_cex`),
because `_isiterable` deliberately excludes anything with a `lower`
attribute.  Amended: construction fails with `TypeError` for every source
failing `_isiterable` (non-iterables and all strings); for sources passing
`_isiterable` it fails with `StopIteration` on an empty candidate sequence —
the constructor unconditionally extracts a first candidate — and succeeds on
a non-empty one, with `len` equal to the candidate count. -/
theorem parameterRangeInit_spec :
    (∀ v : PValue, isIterable v = false → parameterRangeInit v = .error .typeError) ∧
    (∀ v : PValue, isIterable v = true → pyIter v = .ok [] →
        parameterRangeInit v = .error .stopIteration) ∧
    (∀ (v : PValue) (l : List PValue), isIterable v = true → pyIter v = .ok l → l ≠ [] →
        ∃ x xs, l = x :: xs ∧ parameterRangeInit v = .ok (x, v) ∧
          parameterRangeLen (x, v) = .ok l.length) := by
  refine ⟨?_, ?_, ?_⟩
  · intro v h
    simp [parameterRangeInit, h]
  · intro v h hiter
    simp [parameterRangeInit, h, hiter]
  · intro v l h hiter hne
    cases l with
    | nil => exact absurd rfl hne
    | cons x xs =>
        refine ⟨x, xs, rfl, ?_, ?_⟩
        · simp [parameterRangeInit, h, hiter]
        · simpa [parameterRangeLen] using pyLen_of_pyIter h hiter

/-- Witness for `parameterRangeInit_spec` at concrete inputs. -/
theorem parameterRangeInit_spec_witness :
    (∃ x xs, [PValue.int 4, PValue.int 5] = x :: xs ∧
      parameterRangeInit (.list (.cons (.int 4) (.cons (.int 5) .nil)))
        = .ok (x, .list (.cons (.int 4) (.cons (.int 5) .nil))) ∧
      parameterRangeLen (x, .list (.cons (.int 4) (.cons (.int 5) .nil)))
        = .ok [PValue.int 4, PValue.int 5].length) ∧
    parameterRangeInit (.dist 0) = .error .typeError :=
  ⟨parameterRangeInit_spec.2.2 (.list (.cons (.int 4) (.cons (.int 5) .nil)))
      [.int 4, .int 5] (by decide) (by decide) (by decide),
    parameterRangeInit_spec.1 (.dist 0) (by decide)⟩


/-!  Counting lemmas for full-axis iteration (claim C4). -/

theorem pyLen_of_pyIter_ok :
    ∀ {v : PValue} {l : List PValue}, pyIter v = .ok l → pyLen v = .ok l.length := by
  intro v l h
  cases v with
  | list pl =>
      simp only [pyIter, Except.ok.injEq] at h
      subst h
      simp [pyLen, PList.length_toList]
  | str s =>
      simp only [pyIter, Except.ok.injEq] at h
      subst h
      simp only [pyLen, List.length_map]
      rfl
  | tree t =>
      simp only [pyIter, Except.ok.injEq] at h
      subst h
      simp [pyLen, PTree.length_keys]
  | dict d =>
      simp only [pyIter, Except.ok.injEq] at h
      subst h
      simp [pyLen, PTree.length_keys]
  | range vs =>
      simp only [pyIter, Except.ok.injEq] at h
      subst h
      simp [pyLen, PList.length_toList]
  | int n => simp [pyIter] at h
  | dist id => simp [pyIter] at h
  | ref p o => simp [pyIter] at h
  | other id => simp [pyIter] at h

/-- Inversion of one step of the reuse-branch inner loop. -/
theorem runVals_cons_inv {k : String} {v : PValue} {vs : List PValue}
    {st : Bool × PTree} {res : List (Bool × PTree)}
    (h : runVals k st (v :: vs) = .ok res) :
    ∃ t2 st2 rest2, psSetItem st.2 k v = .ok t2 ∧
      ((isSpace t2 = true ∧ st2 = (st.1, t2)) ∨
       (isSpace t2 = false ∧ ∃ c, psInitTree t2 = .ok c ∧ st2 = (false, c))) ∧
      runVals k st2 vs = .ok rest2 ∧ res = st2 :: rest2 := by
  rw [runVals] at h
  obtain ⟨t2, h1, h⟩ := bind_ok_inv h
  cases hsp : isSpace t2 with
  | true =>
      rw [hsp] at h
      simp only [if_true, exceptPure, exceptBind_ok] at h
      obtain ⟨rest2, h3, h⟩ := bind_ok_inv h
      exact ⟨t2, (st.1, t2), rest2, h1, Or.inl ⟨hsp, rfl⟩, h3, (Except.ok.inj h).symm⟩
  | false =>
      rw [hsp] at h
      rw [if_neg (by simp : ¬ (false = true))] at h
      obtain ⟨c, hc, h⟩ := bind_ok_inv h
      simp only [exceptPure, exceptBind_ok] at h
      obtain ⟨rest2, h3, h⟩ := bind_ok_inv h
      exact ⟨t2, (false, c), rest2, h1,
        Or.inr ⟨hsp, c, hc, rfl⟩, h3, (Except.ok.inj h).symm⟩

theorem runVals_length :
    ∀ (vals : List PValue) (k : String) (st : Bool × PTree) (res : List (Bool × PTree)),
      runVals k st vals = .ok res → res.length = vals.length
  | [], _, _, res, h => by
      simp only [runVals, Except.ok.injEq] at h
      simp [← h]
  | v :: vs, k, st, res, h => by
      obtain ⟨t2, st2, rest2, -, -, h3, hres⟩ := runVals_cons_inv h
      subst hres
      simp [List.length_cons, runVals_length vs k st2 rest2 h3]

theorem overStates_length :
    ∀ (sts : List (Bool × PTree)) (k : String) (vals : List PValue)
      (out : List (Bool × PTree)),
      overStates k vals false sts = .ok out → out.length = sts.length * vals.length
  | [], _, _, out, h => by
      simp only [overStates, Except.ok.injEq] at h
      simp [← h]
  | st :: rest, k, vals, out, h => by
      rw [overStates] at h
      simp only [Bool.false_eq_true, if_false] at h
      obtain ⟨a, h1, h⟩ := bind_ok_inv h
      obtain ⟨b, h2, h⟩ := bind_ok_inv h
      have hout : out = a ++ b := (Except.ok.inj h).symm
      subst hout
      have ha := runVals_length vals k st a h1
      have hb := overStates_length rest k vals b h2
      simp only [List.length_append, List.length_cons, ha, hb, Nat.succ_mul]
      omega

theorem attrGetP_ok_getP :
    ∀ (p : List String) (t : PTree) (v : PValue), attrGetP t p = .ok v → getP t p = .ok v
  | [], t, v, h => by simp [attrGetP] at h
  | [k], t, v, h => by
      rw [attrGetP_one] at h
      rw [getP_one]
      cases hl : lookup1 t k with
      | none => rw [hl] at h; simp at h
      | some w => rw [hl] at h; exact h
  | k :: c :: rest, t, v, h => by
      rw [attrGetP_cons2] at h
      rw [getP_cons2]
      cases hl : lookup1 t k with
      | none => rw [hl] at h; simp at h
      | some w =>
          rw [hl] at h
          cases w <;> try simp at h
          exact attrGetP_ok_getP (c :: rest) _ v h

theorem iterKeys_numConditionsGo :
    ∀ (keys : List String) (t : PTree) (n : Nat) (out : List (Bool × PTree)),
      iterInnerRangeKeys t keys false = .ok out →
      numConditionsGo t keys n = .ok (n * out.length)
  | [], t, n, out, h => by
      simp only [iterInnerRangeKeys, Except.ok.injEq] at h
      simp [numConditionsGo, ← h]
  | k :: rest, t, n, out, h => by
      rw [iterInnerRangeKeys] at h
      obtain ⟨inner, h1, h⟩ := bind_ok_inv h
      obtain ⟨rv, h2, h⟩ := bind_ok_inv h
      obtain ⟨vals, h3, h⟩ := bind_ok_inv h
      have hlen := overStates_length inner k vals out h
      have hrec := iterKeys_numConditionsGo rest t (n * vals.length) inner h1
      rw [numConditionsGo, h2]
      simp only [exceptBind_ok]
      rw [pyLen_of_pyIter_ok h3]
      simp only [exceptBind_ok]
      rw [hrec, hlen]
      congr 1
      ring

theorem numConditionsGo_char :
    ∀ (keys : List String) (t : PTree) (n m : Nat),
      numConditionsGo t keys n = .ok m → m = n * (keys.map (axisLenN t)).prod
  | [], t, n, m, h => by
      simp only [numConditionsGo, Except.ok.injEq] at h
      simp [← h]
  | k :: rest, t, n, m, h => by
      rw [numConditionsGo] at h
      obtain ⟨rv, h1, h⟩ := bind_ok_inv h
      obtain ⟨len, h2, h⟩ := bind_ok_inv h
      have hrec := numConditionsGo_char rest t (n * len) m h
      have hax : axisLenN t k = len := by
        simp [axisLenN, axisLen, h1, h2]
      rw [hrec, List.map_cons, List.prod_cons, hax]
      ring

theorem psDimGo_dims :
    ∀ (keys : List String) (t : PTree) (dims : List Nat) (labels : List String),
      psDimGo t keys = .ok (dims, labels) → dims = keys.map (axisLenN t)
  | [], t, dims, labels, h => by
      simp only [psDimGo, Except.ok.injEq, Prod.mk.injEq] at h
      simp [← h.1]
  | k :: rest, t, dims, labels, h => by
      rw [psDimGo] at h
      obtain ⟨rv, h1, h⟩ := bind_ok_inv h
      obtain ⟨len, h2, h⟩ := bind_ok_inv h
      obtain ⟨dl, h3, h⟩ := bind_ok_inv h
      simp only [exceptPure, Except.ok.injEq, Prod.mk.injEq] at h
      have hget : psGet t k = .ok rv := attrGetP_ok_getP _ t rv h1
      have hax : axisLenN t k = len := by
        simp [axisLenN, axisLen, psGet] at hget ⊢
        simp [hget, h2]
      have hrec := psDimGo_dims rest t dl.1 dl.2 (by rw [h3])
      rw [← h.1, List.map_cons, hax, hrec]

/-!  Claim C4: the combinatorial count. -/

/-- Claim C4 (status: confirmed).  Whenever full-axis iteration
(`iter_inner`, reuse policy — the default) succeeds, `num_conditions()`
equals the number of yielded trees, and that number equals the product of
the per-axis candidate counts as reported by
`parameter_space_dimension_labels` (the sorted-axis dimension list). -/
theorem numConditions_eq_iterInner_length :
    ∀ (t : PTree) (out : List (Bool × PTree)), iterInner t false = .ok out →
      numConditions t = .ok out.length ∧
      ∀ (dims : List Nat) (labels : List String),
        parameterSpaceDimensionLabels t = .ok (dims, labels) → dims.prod = out.length := by
  intro t out hiter
  have h1 := iterKeys_numConditionsGo (rangeKeys t) t 1 out hiter
  constructor
  · rw [numConditions, h1, Nat.one_mul]
  · intro dims labels hdim
    have hd := psDimGo_dims (sortedRangeKeys t) t dims labels hdim
    have hchar := numConditionsGo_char (rangeKeys t) t 1 (1 * out.length) h1
    have hperm : List.Perm ((sortedRangeKeys t).map (axisLenN t))
        ((rangeKeys t).map (axisLenN t)) :=
      (List.perm_insertionSort _ _).map _
    rw [hd, hperm.prod_eq]
    omega

/-- Witness for `numConditions_eq_iterInner_length`: the 2-by-3 space yields
exactly 6 points and counts 6, with dimension list `[2, 3]`. -/
theorem numConditions_eq_iterInner_length_witness :
    numConditions space23 = .ok 6 ∧ ([2, 3] : List Nat).prod = 6 := by
  have h := numConditions_eq_iterInner_length space23
    [ (false, .cons "r1" (.int 10) (.cons "r2" (.int 1) .nil)),
      (false, .cons "r1" (.int 20) (.cons "r2" (.int 1) .nil)),
      (false, .cons "r1" (.int 10) (.cons "r2" (.int 2) .nil)),
      (false, .cons "r1" (.int 20) (.cons "r2" (.int 2) .nil)),
      (false, .cons "r1" (.int 10) (.cons "r2" (.int 3) .nil)),
      (false, .cons "r1" (.int 20) (.cons "r2" (.int 3) .nil))] (by decide)
  exact ⟨h.1, h.2 [2, 3] ["r1", "r2"] (by decide)⟩


/-!  Lemmas toward claim C3: tree-copy identity, well-formedness transport,
path algebra. -/

mutual
theorem treeCopyT_id : ∀ t : PTree, treeCopyT t = t
  | .nil => rfl
  | .cons k (.tree sub) rest => by
      rw [treeCopyT, treeCopyT_id sub, treeCopyT_id rest]
  | .cons k (.ref p o) rest => by
      rw [treeCopyT, refCopyOps_id o, treeCopyT_id rest]
  | .cons k (.int n) rest => by simp only [treeCopyT]; rw [treeCopyT_id rest]
  | .cons k (.str s) rest => by simp only [treeCopyT]; rw [treeCopyT_id rest]
  | .cons k (.list l) rest => by simp only [treeCopyT]; rw [treeCopyT_id rest]
  | .cons k (.dict d) rest => by simp only [treeCopyT]; rw [treeCopyT_id rest]
  | .cons k (.range vs) rest => by simp only [treeCopyT]; rw [treeCopyT_id rest]
  | .cons k (.dist i) rest => by simp only [treeCopyT]; rw [treeCopyT_id rest]
  | .cons k (.other i) rest => by simp only [treeCopyT]; rw [treeCopyT_id rest]

theorem refCopyOps_id : ∀ o : POps, refCopyOps o = o
  | .nil => rfl
  | .cons op (.ref p o2) rest => by
      rw [refCopyOps, refCopyOps_id o2, refCopyOps_id rest]
  | .cons op (.int n) rest => by simp only [refCopyOps]; rw [refCopyOps_id rest]
  | .cons op (.str s) rest => by simp only [refCopyOps]; rw [refCopyOps_id rest]
  | .cons op (.list l) rest => by simp only [refCopyOps]; rw [refCopyOps_id rest]
  | .cons op (.tree t) rest => by simp only [refCopyOps]; rw [refCopyOps_id rest]
  | .cons op (.dict d) rest => by simp only [refCopyOps]; rw [refCopyOps_id rest]
  | .cons op (.range vs) rest => by simp only [refCopyOps]; rw [refCopyOps_id rest]
  | .cons op (.dist i) rest => by simp only [refCopyOps]; rw [refCopyOps_id rest]
  | .cons op (.other i) rest => by simp only [refCopyOps]; rw [refCopyOps_id rest]
end

theorem treeCopy_content (t : PTree) : treeCopy t = (isSpace t, t) := by
  rw [treeCopy, treeCopyT_id]

theorem wfL_mem : ∀ {vs : PList} {v : PValue}, wfL vs = true → v ∈ vs.toList → wfV v = true := by
  intro vs
  induction vs using PList.listIndOn with
  | nil => intro v _ hm; simp [PList.toList] at hm
  | cons w rest ih =>
      intro v h hm
      simp only [wfL, Bool.and_eq_true] at h
      rcases List.mem_cons.mp hm with rfl | hm2
      · exact h.1
      · exact ih h.2 hm2

theorem wfT_lookup1 : ∀ {t : PTree} {k : String} {v : PValue},
    wfT t = true → lookup1 t k = some v → wfV v = true := by
  intro t
  induction t using PTree.treeIndOn with
  | nil => intro k v _ h; simp [lookup1] at h
  | cons k2 w rest ih =>
      intro k v hw h
      simp only [wfT, Bool.and_eq_true] at hw
      rw [lookup1] at h
      by_cases he : k2 = k
      · rw [if_pos he] at h
        exact (Option.some.inj h) ▸ hw.1.2
      · rw [if_neg he] at h
        exact ih hw.2 h

theorem wfT_getP :
    ∀ (p : List String) (t : PTree) (v : PValue),
      wfT t = true → getP t p = .ok v → wfV v = true
  | [], t, v, _, h => by simp [getP] at h
  | [k], t, v, hw, h => by
      rw [getP_one] at h
      cases hl : lookup1 t k with
      | none => rw [hl] at h; simp at h
      | some w =>
          rw [hl] at h
          exact (Except.ok.inj h) ▸ wfT_lookup1 hw hl
  | k :: c :: rest, t, v, hw, h => by
      rw [getP_cons2] at h
      cases hl : lookup1 t k with
      | none => rw [hl] at h; simp at h
      | some w =>
          rw [hl] at h
          have hwv : wfV w = true := wfT_lookup1 hw hl
          cases w with
          | tree sub => exact wfT_getP (c :: rest) sub v hwv h
          | dict d => simp [wfV] at hwv
          | int n => simp at h
          | str s => simp at h
          | list l => simp at h
          | range vs => simp at h
          | dist i => simp at h
          | ref p2 o => simp at h
          | other i => simp at h

/-!  Path algebra: splitting appended dotted paths, divergence. -/

theorem splitDots_ne_nil (s : String) : ∃ c cs, splitDots s = c :: cs := by
  rw [splitDots]
  cases h : splitDotsAux s.data [] with
  | nil =>
      exfalso
      revert h
      generalize s.data = l
      generalize ([] : List Char) = acc
      intro h
      induction l generalizing acc with
      | nil => simp [splitDotsAux] at h
      | cons c cs ih =>
          rw [splitDotsAux] at h
          by_cases hc : c = '.'
          · rw [if_pos hc] at h; simp at h
          · rw [if_neg hc] at h; exact ih _ h
  | cons c cs => exact ⟨c.asString, cs.map List.asString, by simp⟩

theorem splitDotsAux_append :
    ∀ (cs ds acc : List Char), (∀ c ∈ cs, c ≠ '.') →
      splitDotsAux (cs ++ '.' :: ds) acc = (acc.reverse ++ cs) :: splitDotsAux ds []
  | [], ds, acc, _ => by simp [splitDotsAux]
  | c :: cs, ds, acc, h => by
      have hc : c ≠ '.' := h c (by simp)
      have ih := splitDotsAux_append cs ds (c :: acc) (fun c2 hc2 => h c2 (by simp [hc2]))
      simp only [List.cons_append, splitDotsAux, hc, if_false]
      simp [ih]

theorem splitDots_append {k : String} (s : String) (h : dotFree k = true) :
    splitDots (k ++ "." ++ s) = k :: splitDots s := by
  have h2 : ∀ c ∈ k.data, c ≠ '.' := by
    intro c hc
    simpa using List.all_eq_true.mp h c hc
  have hdata : (k ++ "." ++ s).data = k.data ++ '.' :: s.data := by
    simp [String.data_append]
  rw [splitDots, hdata, splitDotsAux_append k.data s.data [] h2]
  simp [splitDots, List.asString]

theorem strAppend_cancel {k a b : String} (h : k ++ "." ++ a = k ++ "." ++ b) : a = b := by
  have hd := congrArg String.data h
  simp only [String.data_append] at hd
  exact String.ext (List.append_cancel_left hd)

theorem noPref_symm : ∀ a b : List String, noPref a b = noPref b a
  | [], [] => rfl
  | [], _ :: _ => rfl
  | _ :: _, [] => rfl
  | a :: as, b :: bs => by
      by_cases h : a = b
      · subst h
        simp [noPref, noPref_symm as bs]
      · simp [noPref, h, Ne.symm h]

theorem noPref_cons_ne {a b : String} (as bs : List String) (h : a ≠ b) :
    noPref (a :: as) (b :: bs) = true := by
  simp [noPref, h]

theorem noPref_cons_eq (a : String) (as bs : List String) :
    noPref (a :: as) (a :: bs) = noPref as bs := by
  simp [noPref]

/-!  Unfolding equations for `nestedDictWalk`. -/

theorem nestedDictWalk_cons_tree (k : String) (sub rest : PTree) :
    nestedDictWalk (.cons k (.tree sub) rest) =
      (nestedDictWalk sub).map (fun kv => (k ++ "." ++ kv.1, kv.2)) ++ nestedDictWalk rest := rfl

theorem nestedDictWalk_cons_dict (k : String) (d rest : PTree) :
    nestedDictWalk (.cons k (.dict d) rest) =
      (nestedDictWalk d).map (fun kv => (k ++ "." ++ kv.1, kv.2)) ++ nestedDictWalk rest := rfl

theorem nestedDictWalk_cons_other (k : String) (v : PValue) (rest : PTree)
    (h1 : ∀ sub, v ≠ .tree sub) (h2 : ∀ d, v ≠ .dict d) :
    nestedDictWalk (.cons k v rest) = (k, v) :: nestedDictWalk rest := by
  cases v <;> first
    | exact absurd rfl (h1 _)
    | exact absurd rfl (h2 _)
    | rfl


/-!  The flat walk agrees with dotted-path lookup (both item and attribute
style) on well-formed trees. -/

theorem getP_cons_skip {k : String} (w : PValue) {rest : PTree} {k2 : String}
    (tail : List String) (hne : k ≠ k2) :
    getP (.cons k w rest) (k2 :: tail) = getP rest (k2 :: tail) ∧
    attrGetP (.cons k w rest) (k2 :: tail) = attrGetP rest (k2 :: tail) := by
  have hl : lookup1 (.cons k w rest) k2 = lookup1 rest k2 := by
    rw [lookup1, if_neg hne]
  cases tail with
  | nil => exact ⟨by rw [getP_one, getP_one, hl], by rw [attrGetP_one, attrGetP_one, hl]⟩
  | cons c tail2 =>
      exact ⟨by rw [getP_cons2, getP_cons2, hl], by rw [attrGetP_cons2, attrGetP_cons2, hl]⟩

theorem walk_step_rest {k : String} {w : PValue} {rest : PTree}
    (hnod : (lookup1 rest k).isNone = true) {p : String} {v : PValue}
    (hres : getP rest (splitDots p) = .ok v ∧ attrGetP rest (splitDots p) = .ok v ∧
      ∃ k2 tail, splitDots p = k2 :: tail ∧ k2 ∈ rest.keys) :
    getP (.cons k w rest) (splitDots p) = .ok v ∧
    attrGetP (.cons k w rest) (splitDots p) = .ok v ∧
    ∃ k2 tail, splitDots p = k2 :: tail ∧ k2 ∈ (PTree.cons k w rest).keys := by
  obtain ⟨hg, ha, k2, tail, hsplit, hk2⟩ := hres
  have hknotin : k ∉ rest.keys :=
    (lookup1_none_iff_not_mem_keys rest k).mp (Option.isNone_iff_eq_none.mp hnod)
  have hne : k ≠ k2 := fun he => hknotin (he ▸ hk2)
  obtain ⟨hskipg, hskipa⟩ := getP_cons_skip w tail hne
  rw [hsplit] at hg ha ⊢
  exact ⟨by rw [hskipg]; exact hg, by rw [hskipa]; exact ha,
    k2, tail, rfl, by simp [PTree.keys, hk2]⟩

theorem walk_step_leaf {k : String} {w : PValue} {rest : PTree}
    (hw : wfT (.cons k w rest) = true)
    (h1 : ∀ sub, w ≠ .tree sub) (h2 : ∀ d, w ≠ .dict d)
    (IH : ∀ p v, (p, v) ∈ nestedDictWalk rest →
      getP rest (splitDots p) = .ok v ∧ attrGetP rest (splitDots p) = .ok v ∧
      ∃ k2 tail, splitDots p = k2 :: tail ∧ k2 ∈ rest.keys) :
    ∀ p v, (p, v) ∈ nestedDictWalk (.cons k w rest) →
      getP (.cons k w rest) (splitDots p) = .ok v ∧
      attrGetP (.cons k w rest) (splitDots p) = .ok v ∧
      ∃ k2 tail, splitDots p = k2 :: tail ∧ k2 ∈ (PTree.cons k w rest).keys := by
  intro p v hm
  simp only [wfT, Bool.and_eq_true] at hw
  obtain ⟨⟨⟨hk, hnod⟩, -⟩, -⟩ := hw
  have hdf := (wfKey_spec hk).1
  rw [nestedDictWalk_cons_other k w rest h1 h2] at hm
  rcases List.mem_cons.mp hm with heq | hm2
  · have hp : p = k := congrArg Prod.fst heq
    have hv : v = w := congrArg Prod.snd heq
    subst hp
    subst hv
    rw [splitDots_of_dotFree hdf]
    have hl : lookup1 (.cons p v rest) p = some v := by rw [lookup1, if_pos rfl]
    exact ⟨by rw [getP_one, hl], by rw [attrGetP_one, hl], p, [], rfl, by simp [PTree.keys]⟩
  · exact walk_step_rest hnod (IH p v hm2)

theorem walk_step_tree {k : String} {sub rest : PTree}
    (hw : wfT (.cons k (.tree sub) rest) = true)
    (IHsub : ∀ p v, (p, v) ∈ nestedDictWalk sub →
      getP sub (splitDots p) = .ok v ∧ attrGetP sub (splitDots p) = .ok v ∧
      ∃ k2 tail, splitDots p = k2 :: tail ∧ k2 ∈ sub.keys)
    (IHrest : ∀ p v, (p, v) ∈ nestedDictWalk rest →
      getP rest (splitDots p) = .ok v ∧ attrGetP rest (splitDots p) = .ok v ∧
      ∃ k2 tail, splitDots p = k2 :: tail ∧ k2 ∈ rest.keys) :
    ∀ p v, (p, v) ∈ nestedDictWalk (.cons k (.tree sub) rest) →
      getP (.cons k (.tree sub) rest) (splitDots p) = .ok v ∧
      attrGetP (.cons k (.tree sub) rest) (splitDots p) = .ok v ∧
      ∃ k2 tail, splitDots p = k2 :: tail ∧ k2 ∈ (PTree.cons k (.tree sub) rest).keys := by
  intro p v hm
  simp only [wfT, Bool.and_eq_true] at hw
  obtain ⟨⟨⟨hk, hnod⟩, -⟩, -⟩ := hw
  have hdf := (wfKey_spec hk).1
  rw [nestedDictWalk_cons_tree] at hm
  rcases List.mem_append.mp hm with hm1 | hm2
  · obtain ⟨⟨p2, v2⟩, hmem, heq⟩ := List.mem_map.mp hm1
    have hp : p = k ++ "." ++ p2 := (congrArg Prod.fst heq).symm
    have hv : v2 = v := congrArg Prod.snd heq
    subst hp
    subst hv
    obtain ⟨hg, ha, c, tail2, hsplit2, -⟩ := IHsub p2 v2 hmem
    have hsplit : splitDots (k ++ "." ++ p2) = k :: splitDots p2 := splitDots_append p2 hdf
    have hl : lookup1 (.cons k (.tree sub) rest) k = some (.tree sub) := by
      rw [lookup1, if_pos rfl]
    rw [hsplit2] at hg ha
    rw [hsplit, hsplit2]
    refine ⟨?_, ?_, k, c :: tail2, rfl, by simp [PTree.keys]⟩
    · rw [getP_cons2, hl]
      exact hg
    · rw [attrGetP_cons2, hl]
      exact ha
  · exact walk_step_rest hnod (IHrest p v hm2)

theorem walk_getP :
    ∀ (t : PTree), wfT t = true → ∀ (p : String) (v : PValue), (p, v) ∈ nestedDictWalk t →
      getP t (splitDots p) = .ok v ∧ attrGetP t (splitDots p) = .ok v ∧
      ∃ k2 tail, splitDots p = k2 :: tail ∧ k2 ∈ t.keys
  | .nil, _ => by intro p v hm; simp [nestedDictWalk] at hm
  | .cons k (.tree sub) rest, hw => by
      have hsub : wfT sub = true := by
        simp only [wfT, wfV, Bool.and_eq_true] at hw
        exact hw.1.2
      have hrest : wfT rest = true := by
        simp only [wfT, Bool.and_eq_true] at hw
        exact hw.2
      exact walk_step_tree hw (walk_getP sub hsub) (walk_getP rest hrest)
  | .cons k (.dict d) rest, hw => by
      exfalso
      simp [wfT, wfV] at hw
  | .cons k (.int n) rest, hw => by
      have hrest : wfT rest = true := by
        simp only [wfT, Bool.and_eq_true] at hw
        exact hw.2
      exact walk_step_leaf hw (fun _ h => PValue.noConfusion h) (fun _ h => PValue.noConfusion h)
        (walk_getP rest hrest)
  | .cons k (.str s) rest, hw => by
      have hrest : wfT rest = true := by
        simp only [wfT, Bool.and_eq_true] at hw
        exact hw.2
      exact walk_step_leaf hw (fun _ h => PValue.noConfusion h) (fun _ h => PValue.noConfusion h)
        (walk_getP rest hrest)
  | .cons k (.list l) rest, hw => by
      have hrest : wfT rest = true := by
        simp only [wfT, Bool.and_eq_true] at hw
        exact hw.2
      exact walk_step_leaf hw (fun _ h => PValue.noConfusion h) (fun _ h => PValue.noConfusion h)
        (walk_getP rest hrest)
  | .cons k (.range vs) rest, hw => by
      have hrest : wfT rest = true := by
        simp only [wfT, Bool.and_eq_true] at hw
        exact hw.2
      exact walk_step_leaf hw (fun _ h => PValue.noConfusion h) (fun _ h => PValue.noConfusion h)
        (walk_getP rest hrest)
  | .cons k (.dist i) rest, hw => by
      have hrest : wfT rest = true := by
        simp only [wfT, Bool.and_eq_true] at hw
        exact hw.2
      exact walk_step_leaf hw (fun _ h => PValue.noConfusion h) (fun _ h => PValue.noConfusion h)
        (walk_getP rest hrest)
  | .cons k (.ref p2 o) rest, hw => by
      have hrest : wfT rest = true := by
        simp only [wfT, Bool.and_eq_true] at hw
        exact hw.2
      exact walk_step_leaf hw (fun _ h => PValue.noConfusion h) (fun _ h => PValue.noConfusion h)
        (walk_getP rest hrest)
  | .cons k (.other i) rest, hw => by
      have hrest : wfT rest = true := by
        simp only [wfT, Bool.and_eq_true] at hw
        exact hw.2
      exact walk_step_leaf hw (fun _ h => PValue.noConfusion h) (fun _ h => PValue.noConfusion h)
        (walk_getP rest hrest)


/-!  Distinct flat-walk paths of a well-formed tree diverge (neither is a
prefix of the other) and are pairwise distinct. -/

theorem walk_nonpref_step_leaf {k : String} {w : PValue} {rest : PTree}
    (hw : wfT (.cons k w rest) = true)
    (h1 : ∀ sub, w ≠ .tree sub) (h2 : ∀ d, w ≠ .dict d)
    (IHrest : ∀ p v q w2, (p, v) ∈ nestedDictWalk rest → (q, w2) ∈ nestedDictWalk rest →
      p ≠ q → noPref (splitDots p) (splitDots q) = true) :
    ∀ p v q w2, (p, v) ∈ nestedDictWalk (.cons k w rest) →
      (q, w2) ∈ nestedDictWalk (.cons k w rest) → p ≠ q →
      noPref (splitDots p) (splitDots q) = true := by
  intro p v q w2 hp hq hne
  have hw2 := hw
  simp only [wfT, Bool.and_eq_true] at hw2
  obtain ⟨⟨⟨hk, hnod⟩, -⟩, hwrest⟩ := hw2
  have hdf := (wfKey_spec hk).1
  have hknotin : k ∉ rest.keys :=
    (lookup1_none_iff_not_mem_keys rest k).mp (Option.isNone_iff_eq_none.mp hnod)
  rw [nestedDictWalk_cons_other k w rest h1 h2] at hp hq
  rcases List.mem_cons.mp hp with hph | hpr
  · have hpk : p = k := congrArg Prod.fst hph
    rcases List.mem_cons.mp hq with hqh | hqr
    · exact absurd (hpk.trans (congrArg Prod.fst hqh).symm) hne
    · obtain ⟨-, -, k2, tail, hsq, hk2⟩ := walk_getP rest hwrest q w2 hqr
      have hkne : k ≠ k2 := fun he => hknotin (he ▸ hk2)
      rw [hpk, splitDots_of_dotFree hdf, hsq]
      exact noPref_cons_ne [] tail hkne
  · rcases List.mem_cons.mp hq with hqh | hqr
    · have hqk : q = k := congrArg Prod.fst hqh
      obtain ⟨-, -, k2, tail, hsp, hk2⟩ := walk_getP rest hwrest p v hpr
      have hkne : k2 ≠ k := fun he => hknotin (he ▸ hk2)
      rw [hqk, splitDots_of_dotFree hdf, hsp]
      exact noPref_cons_ne tail [] hkne
    · exact IHrest p v q w2 hpr hqr hne

theorem walk_nonpref_step_tree {k : String} {sub rest : PTree}
    (hw : wfT (.cons k (.tree sub) rest) = true)
    (IHsub : ∀ p v q w2, (p, v) ∈ nestedDictWalk sub → (q, w2) ∈ nestedDictWalk sub →
      p ≠ q → noPref (splitDots p) (splitDots q) = true)
    (IHrest : ∀ p v q w2, (p, v) ∈ nestedDictWalk rest → (q, w2) ∈ nestedDictWalk rest →
      p ≠ q → noPref (splitDots p) (splitDots q) = true) :
    ∀ p v q w2, (p, v) ∈ nestedDictWalk (.cons k (.tree sub) rest) →
      (q, w2) ∈ nestedDictWalk (.cons k (.tree sub) rest) → p ≠ q →
      noPref (splitDots p) (splitDots q) = true := by
  intro p v q w2 hp hq hne
  have hw2 := hw
  simp only [wfT, Bool.and_eq_true] at hw2
  obtain ⟨⟨⟨hk, hnod⟩, -⟩, hwrest⟩ := hw2
  have hdf := (wfKey_spec hk).1
  have hknotin : k ∉ rest.keys :=
    (lookup1_none_iff_not_mem_keys rest k).mp (Option.isNone_iff_eq_none.mp hnod)
  rw [nestedDictWalk_cons_tree] at hp hq
  rcases List.mem_append.mp hp with hp1 | hp2
  · obtain ⟨⟨p2, v2⟩, hpm, hpe⟩ := List.mem_map.mp hp1
    have hpp : p = k ++ "." ++ p2 := (congrArg Prod.fst hpe).symm
    rcases List.mem_append.mp hq with hq1 | hq2
    · obtain ⟨⟨q2, u2⟩, hqm, hqe⟩ := List.mem_map.mp hq1
      have hqq : q = k ++ "." ++ q2 := (congrArg Prod.fst hqe).symm
      have hne2 : p2 ≠ q2 := fun he => hne (by rw [hpp, hqq, he])
      rw [hpp, hqq, splitDots_append p2 hdf, splitDots_append q2 hdf, noPref_cons_eq]
      exact IHsub p2 v2 q2 u2 hpm hqm hne2
    · obtain ⟨-, -, k2, tail, hsq, hk2⟩ := walk_getP rest hwrest q w2 hq2
      have hkne : k ≠ k2 := fun he => hknotin (he ▸ hk2)
      rw [hpp, splitDots_append p2 hdf, hsq]
      exact noPref_cons_ne _ tail hkne
  · rcases List.mem_append.mp hq with hq1 | hq2
    · obtain ⟨⟨q2, u2⟩, hqm, hqe⟩ := List.mem_map.mp hq1
      have hqq : q = k ++ "." ++ q2 := (congrArg Prod.fst hqe).symm
      obtain ⟨-, -, k2, tail, hsp, hk2⟩ := walk_getP rest hwrest p v hp2
      have hkne : k2 ≠ k := fun he => hknotin (he ▸ hk2)
      rw [hqq, splitDots_append q2 hdf, hsp]
      exact noPref_cons_ne tail _ hkne
    · exact IHrest p v q w2 hp2 hq2 hne

theorem walk_nonpref :
    ∀ (t : PTree), wfT t = true → ∀ p v q w2, (p, v) ∈ nestedDictWalk t →
      (q, w2) ∈ nestedDictWalk t → p ≠ q → noPref (splitDots p) (splitDots q) = true
  | .nil, _ => by intro p v q w2 hp _ _; simp [nestedDictWalk] at hp
  | .cons k (.tree sub) rest, hw => by
      have hsub : wfT sub = true := by
        simp only [wfT, wfV, Bool.and_eq_true] at hw
        exact hw.1.2
      have hrest : wfT rest = true := by
        simp only [wfT, Bool.and_eq_true] at hw
        exact hw.2
      exact walk_nonpref_step_tree hw (walk_nonpref sub hsub) (walk_nonpref rest hrest)
  | .cons k (.dict d) rest, hw => by
      exfalso
      simp [wfT, wfV] at hw
  | .cons k (.int n) rest, hw => by
      have hrest : wfT rest = true := by
        simp only [wfT, Bool.and_eq_true] at hw
        exact hw.2
      exact walk_nonpref_step_leaf hw (fun _ h => PValue.noConfusion h)
        (fun _ h => PValue.noConfusion h) (walk_nonpref rest hrest)
  | .cons k (.str s) rest, hw => by
      have hrest : wfT rest = true := by
        simp only [wfT, Bool.and_eq_true] at hw
        exact hw.2
      exact walk_nonpref_step_leaf hw (fun _ h => PValue.noConfusion h)
        (fun _ h => PValue.noConfusion h) (walk_nonpref rest hrest)
  | .cons k (.list l) rest, hw => by
      have hrest : wfT rest = true := by
        simp only [wfT, Bool.and_eq_true] at hw
        exact hw.2
      exact walk_nonpref_step_leaf hw (fun _ h => PValue.noConfusion h)
        (fun _ h => PValue.noConfusion h) (walk_nonpref rest hrest)
  | .cons k (.range vs) rest, hw => by
      have hrest : wfT rest = true := by
        simp only [wfT, Bool.and_eq_true] at hw
        exact hw.2
      exact walk_nonpref_step_leaf hw (fun _ h => PValue.noConfusion h)
        (fun _ h => PValue.noConfusion h) (walk_nonpref rest hrest)
  | .cons k (.dist i) rest, hw => by
      have hrest : wfT rest = true := by
        simp only [wfT, Bool.and_eq_true] at hw
        exact hw.2
      exact walk_nonpref_step_leaf hw (fun _ h => PValue.noConfusion h)
        (fun _ h => PValue.noConfusion h) (walk_nonpref rest hrest)
  | .cons k (.ref p2 o) rest, hw => by
      have hrest : wfT rest = true := by
        simp only [wfT, Bool.and_eq_true] at hw
        exact hw.2
      exact walk_nonpref_step_leaf hw (fun _ h => PValue.noConfusion h)
        (fun _ h => PValue.noConfusion h) (walk_nonpref rest hrest)
  | .cons k (.other i) rest, hw => by
      have hrest : wfT rest = true := by
        simp only [wfT, Bool.and_eq_true] at hw
        exact hw.2
      exact walk_nonpref_step_leaf hw (fun _ h => PValue.noConfusion h)
        (fun _ h => PValue.noConfusion h) (walk_nonpref rest hrest)

theorem rangeKeys_mem {t : PTree} {k : String} (h : k ∈ rangeKeys t) :
    ∃ vs2, (k, PValue.range vs2) ∈ nestedDictWalk t := by
  simp only [rangeKeys, List.mem_map, List.mem_filter] at h
  obtain ⟨⟨k2, v⟩, ⟨hm, hr⟩, rfl⟩ := h
  cases v <;> simp [isRangeV] at hr
  exact ⟨_, hm⟩

theorem rangeKeys_getP {t : PTree} {k : String} (hw : wfT t = true) (h : k ∈ rangeKeys t) :
    ∃ vs2, getP t (splitDots k) = .ok (.range vs2) ∧
      attrGetP t (splitDots k) = .ok (.range vs2) ∧ wfL vs2 = true := by
  obtain ⟨vs2, hm⟩ := rangeKeys_mem h
  obtain ⟨hg, ha, -⟩ := walk_getP t hw k (.range vs2) hm
  have hwv : wfV (.range vs2) = true := wfT_getP _ t _ hw hg
  exact ⟨vs2, hg, ha, by simpa [wfV] using hwv⟩

theorem rangeKeys_pairwise {t : PTree} (hw : wfT t = true)
    (hnd : (rangeKeys t).Nodup) :
    List.Pairwise (fun a b => noPref (splitDots a) (splitDots b) = true) (rangeKeys t) := by
  refine List.Pairwise.imp_of_mem ?_ hnd
  intro a b ha hb hne
  obtain ⟨vsa, hma⟩ := rangeKeys_mem ha
  obtain ⟨vsb, hmb⟩ := rangeKeys_mem hb
  exact walk_nonpref t hw a (.range vsa) b (.range vsb) hma hmb hne


/-!  Flat-walk paths are pairwise distinct on well-formed trees. -/

theorem walk_nodup_step_leaf {k : String} {w : PValue} {rest : PTree}
    (hw : wfT (.cons k w rest) = true)
    (h1 : ∀ sub, w ≠ .tree sub) (h2 : ∀ d, w ≠ .dict d)
    (IHrest : ((nestedDictWalk rest).map Prod.fst).Nodup) :
    ((nestedDictWalk (.cons k w rest)).map Prod.fst).Nodup := by
  have hw2 := hw
  simp only [wfT, Bool.and_eq_true] at hw2
  obtain ⟨⟨⟨hk, hnod⟩, -⟩, hwrest⟩ := hw2
  have hdf := (wfKey_spec hk).1
  have hknotin : k ∉ rest.keys :=
    (lookup1_none_iff_not_mem_keys rest k).mp (Option.isNone_iff_eq_none.mp hnod)
  rw [nestedDictWalk_cons_other k w rest h1 h2]
  simp only [List.map_cons, List.nodup_cons]
  refine ⟨?_, IHrest⟩
  intro hmem
  obtain ⟨⟨q, w2⟩, hqm, hqe⟩ := List.mem_map.mp hmem
  obtain ⟨-, -, k2, tail, hsq, hk2⟩ := walk_getP rest hwrest q w2 hqm
  have hqk : q = k := hqe
  rw [hqk, splitDots_of_dotFree hdf] at hsq
  have : k2 = k := (List.cons.injEq .. |>.mp hsq.symm).1
  exact hknotin (this ▸ hk2)

theorem walk_nodup_step_tree {k : String} {sub rest : PTree}
    (hw : wfT (.cons k (.tree sub) rest) = true)
    (IHsub : ((nestedDictWalk sub).map Prod.fst).Nodup)
    (IHrest : ((nestedDictWalk rest).map Prod.fst).Nodup) :
    ((nestedDictWalk (.cons k (.tree sub) rest)).map Prod.fst).Nodup := by
  have hw2 := hw
  simp only [wfT, Bool.and_eq_true] at hw2
  obtain ⟨⟨⟨hk, hnod⟩, -⟩, hwrest⟩ := hw2
  have hdf := (wfKey_spec hk).1
  have hknotin : k ∉ rest.keys :=
    (lookup1_none_iff_not_mem_keys rest k).mp (Option.isNone_iff_eq_none.mp hnod)
  rw [nestedDictWalk_cons_tree]
  rw [List.map_append]
  refine List.Nodup.append ?_ IHrest ?_
  · have : (((nestedDictWalk sub).map (fun kv => (k ++ "." ++ kv.1, kv.2))).map Prod.fst)
        = ((nestedDictWalk sub).map Prod.fst).map (fun x => k ++ "." ++ x) := by
      simp [List.map_map]
    rw [this]
    exact IHsub.map (fun x y hxy => strAppend_cancel hxy)
  · intro x hx1 hx2
    rw [List.map_map] at hx1
    obtain ⟨⟨p2, v2⟩, hpm, hpe⟩ := List.mem_map.mp hx1
    obtain ⟨⟨q, w2⟩, hqm, hqe⟩ := List.mem_map.mp hx2
    obtain ⟨-, -, k2, tail, hsq, hk2⟩ := walk_getP rest hwrest q w2 hqm
    have hpe2 : k ++ "." ++ p2 = x := hpe
    have hqk : q = x := hqe
    rw [hqk, ← hpe2, splitDots_append _ hdf] at hsq
    have : k2 = k := (List.cons.injEq .. |>.mp hsq.symm).1
    exact hknotin (this ▸ hk2)

theorem walk_nodup :
    ∀ (t : PTree), wfT t = true → ((nestedDictWalk t).map Prod.fst).Nodup
  | .nil, _ => by simp [nestedDictWalk]
  | .cons k (.tree sub) rest, hw => by
      have hsub : wfT sub = true := by
        simp only [wfT, wfV, Bool.and_eq_true] at hw
        exact hw.1.2
      have hrest : wfT rest = true := by
        simp only [wfT, Bool.and_eq_true] at hw
        exact hw.2
      exact walk_nodup_step_tree hw (walk_nodup sub hsub) (walk_nodup rest hrest)
  | .cons k (.dict d) rest, hw => by
      exfalso
      simp [wfT, wfV] at hw
  | .cons k (.int n) rest, hw => by
      have hrest : wfT rest = true := by
        simp only [wfT, Bool.and_eq_true] at hw
        exact hw.2
      exact walk_nodup_step_leaf hw (fun _ h => PValue.noConfusion h)
        (fun _ h => PValue.noConfusion h) (walk_nodup rest hrest)
  | .cons k (.str s) rest, hw => by
      have hrest : wfT rest = true := by
        simp only [wfT, Bool.and_eq_true] at hw
        exact hw.2
      exact walk_nodup_step_leaf hw (fun _ h => PValue.noConfusion h)
        (fun _ h => PValue.noConfusion h) (walk_nodup rest hrest)
  | .cons k (.list l) rest, hw => by
      have hrest : wfT rest = true := by
        simp only [wfT, Bool.and_eq_true] at hw
        exact hw.2
      exact walk_nodup_step_leaf hw (fun _ h => PValue.noConfusion h)
        (fun _ h => PValue.noConfusion h) (walk_nodup rest hrest)
  | .cons k (.range vs) rest, hw => by
      have hrest : wfT rest = true := by
        simp only [wfT, Bool.and_eq_true] at hw
        exact hw.2
      exact walk_nodup_step_leaf hw (fun _ h => PValue.noConfusion h)
        (fun _ h => PValue.noConfusion h) (walk_nodup rest hrest)
  | .cons k (.dist i) rest, hw => by
      have hrest : wfT rest = true := by
        simp only [wfT, Bool.and_eq_true] at hw
        exact hw.2
      exact walk_nodup_step_leaf hw (fun _ h => PValue.noConfusion h)
        (fun _ h => PValue.noConfusion h) (walk_nodup rest hrest)
  | .cons k (.ref p2 o) rest, hw => by
      have hrest : wfT rest = true := by
        simp only [wfT, Bool.and_eq_true] at hw
        exact hw.2
      exact walk_nodup_step_leaf hw (fun _ h => PValue.noConfusion h)
        (fun _ h => PValue.noConfusion h) (walk_nodup rest hrest)
  | .cons k (.other i) rest, hw => by
      have hrest : wfT rest = true := by
        simp only [wfT, Bool.and_eq_true] at hw
        exact hw.2
      exact walk_nodup_step_leaf hw (fun _ h => PValue.noConfusion h)
        (fun _ h => PValue.noConfusion h) (walk_nodup rest hrest)

theorem rangeKeys_nodup {t : PTree} (hw : wfT t = true) : (rangeKeys t).Nodup := by
  have h1 := walk_nodup t hw
  have h2 : List.Sublist
      (((nestedDictWalk t).filter (fun kv => isRangeV kv.2)).map Prod.fst)
      ((nestedDictWalk t).map Prod.fst) :=
    List.Sublist.map Prod.fst ((nestedDictWalk t).filter_sublist)
  exact h1.sublist h2


/-!  Strict assignment: inversion, read-back, preservation, and
well-formedness transport. -/

theorem setP_cons2_inv {t : PTree} {a c : String} {rest : List String} {v : PValue}
    {t2 : PTree} (h : setP t (a :: c :: rest) v = .ok t2) :
    (∃ sub sub2, lookup1 t a = some (.tree sub) ∧ setP sub (c :: rest) v = .ok sub2 ∧
      t2 = dictSet t a (.tree sub2)) ∨
    (∃ d, lookup1 t a = some (.dict d) ∧
      t2 = dictSet t a (.dict (dictSet d (joinDots (c :: rest)) v))) := by
  rw [setP_cons2] at h
  cases hl : lookup1 t a with
  | none => rw [hl] at h; simp at h
  | some w =>
      rw [hl] at h
      cases w with
      | tree sub =>
          obtain ⟨sub2, hs, h⟩ := bind_ok_inv h
          exact Or.inl ⟨sub, sub2, rfl, hs, (Except.ok.inj h).symm⟩
      | dict d => exact Or.inr ⟨d, rfl, (Except.ok.inj h).symm⟩
      | int n => simp at h
      | str s => simp at h
      | list l => simp at h
      | range vs => simp at h
      | dist i => simp at h
      | ref p2 o => simp at h
      | other i => simp at h

theorem getP_congr_head {t2 t : PTree} {b : String} (bs : List String)
    (hl : lookup1 t2 b = lookup1 t b) :
    getP t2 (b :: bs) = getP t (b :: bs) ∧
    attrGetP t2 (b :: bs) = attrGetP t (b :: bs) := by
  cases bs with
  | nil =>
      constructor
      · rw [getP_one, getP_one, hl]
      · rw [attrGetP_one, attrGetP_one, hl]
  | cons c tail =>
      constructor
      · rw [getP_cons2, getP_cons2, hl]
      · rw [attrGetP_cons2, attrGetP_cons2, hl]

theorem getP_setP_self :
    ∀ (p : List String) (t : PTree) (v : PValue) (t2 : PTree),
      setP t p v = .ok t2 → getP t2 p = .ok v
  | [], t, v, t2, h => by simp [setP] at h
  | [a], t, v, t2, h => by
      rw [setP_one] at h
      have ht2 : t2 = dictSet t a v := (Except.ok.inj h).symm
      subst ht2
      rw [getP_one, lookup1_dictSet_self]
  | a :: c :: rest, t, v, t2, h => by
      rcases setP_cons2_inv h with ⟨sub, sub2, hl, hs, ht2⟩ | ⟨d, hl, ht2⟩
      · subst ht2
        rw [getP_cons2, lookup1_dictSet_self]
        exact getP_setP_self (c :: rest) sub v sub2 hs
      · subst ht2
        rw [getP_cons2, lookup1_dictSet_self]
        simp [lookup1_dictSet_self]

theorem wfT_dictSet_replace {k : String} {v w : PValue} :
    ∀ {t : PTree}, wfT t = true → wfV v = true → lookup1 t k = some w →
      wfT (dictSet t k v) = true := by
  intro t
  induction t using PTree.treeIndOn with
  | nil => intro _ _ hl; simp [lookup1] at hl
  | cons k2 w2 rest ih =>
      intro hw hv hl
      simp only [wfT, Bool.and_eq_true] at hw
      obtain ⟨⟨⟨hk2, hnod⟩, hw2⟩, hwrest⟩ := hw
      rw [lookup1] at hl
      by_cases he : k2 = k
      · rw [dictSet, if_pos he]
        simp [wfT, hk2, hnod, hv, hwrest]
      · rw [if_neg he] at hl
        rw [dictSet, if_neg he]
        have hrest2 := ih hwrest hv hl
        have hnod2 : (lookup1 (dictSet rest k v) k2).isNone = true := by
          have hne : k ≠ k2 := fun h2 => he h2.symm
          rw [lookup1_dictSet_ne rest k k2 v hne]
          exact hnod
        simp [wfT, hk2, hnod2, hw2, hrest2]

theorem wfT_setP :
    ∀ (p : List String) (t : PTree) (v w : PValue) (t2 : PTree),
      wfT t = true → wfV v = true → getP t p = .ok w → setP t p v = .ok t2 →
      wfT t2 = true
  | [], t, v, w, t2, _, _, hg, _ => by simp [getP] at hg
  | [a], t, v, w, t2, hw, hv, hg, h => by
      rw [setP_one] at h
      have ht2 : t2 = dictSet t a v := (Except.ok.inj h).symm
      subst ht2
      rw [getP_one] at hg
      cases hl : lookup1 t a with
      | none => rw [hl] at hg; simp at hg
      | some u => exact wfT_dictSet_replace hw hv hl
  | a :: c :: rest, t, v, w, t2, hw, hv, hg, h => by
      rcases setP_cons2_inv h with ⟨sub, sub2, hl, hs, ht2⟩ | ⟨d, hl, ht2⟩
      · subst ht2
        rw [getP_cons2, hl] at hg
        have hwsub : wfT sub = true := by
          have := wfT_lookup1 hw hl
          simpa [wfV] using this
        have hwsub2 := wfT_setP (c :: rest) sub v w sub2 hwsub hv hg hs
        exact wfT_dictSet_replace hw (by simpa [wfV] using hwsub2) hl
      · have := wfT_lookup1 hw hl
        simp [wfV] at this

theorem attrGetP_setP_self :
    ∀ (p : List String) (t : PTree) (v : PValue) (t2 : PTree),
      wfT t = true → setP t p v = .ok t2 → attrGetP t2 p = .ok v
  | [], t, v, t2, _, h => by simp [setP] at h
  | [a], t, v, t2, _, h => by
      rw [setP_one] at h
      have ht2 : t2 = dictSet t a v := (Except.ok.inj h).symm
      subst ht2
      rw [attrGetP_one, lookup1_dictSet_self]
  | a :: c :: rest, t, v, t2, hw, h => by
      rcases setP_cons2_inv h with ⟨sub, sub2, hl, hs, ht2⟩ | ⟨d, hl, ht2⟩
      · subst ht2
        rw [attrGetP_cons2, lookup1_dictSet_self]
        have hwsub : wfT sub = true := by
          have := wfT_lookup1 hw hl
          simpa [wfV] using this
        exact attrGetP_setP_self (c :: rest) sub v sub2 hwsub hs
      · have := wfT_lookup1 hw hl
        simp [wfV] at this

theorem getP_setP_noPref :
    ∀ (p q : List String) (t : PTree) (v : PValue) (t2 : PTree),
      wfT t = true → setP t p v = .ok t2 → noPref p q = true →
      getP t2 q = getP t q ∧ attrGetP t2 q = attrGetP t q
  | [], q, t, v, t2, _, h, _ => by simp [setP] at h
  | a :: as, [], t, v, t2, _, _, hnp => by simp [noPref] at hnp
  | [a], b :: bs, t, v, t2, hw, h, hnp => by
      rw [setP_one] at h
      have ht2 : t2 = dictSet t a v := (Except.ok.inj h).symm
      subst ht2
      have hne : a ≠ b := by
        by_contra he
        subst he
        rw [noPref_cons_eq] at hnp
        simp [noPref] at hnp
      exact getP_congr_head bs (lookup1_dictSet_ne t a b v hne)
  | a :: c :: rest, b :: bs, t, v, t2, hw, h, hnp => by
      rcases setP_cons2_inv h with ⟨sub, sub2, hl, hs, ht2⟩ | ⟨d, hl, ht2⟩
      · subst ht2
        by_cases he : a = b
        · subst he
          rw [noPref_cons_eq] at hnp
          cases bs with
          | nil => simp [noPref] at hnp
          | cons b2 bs2 =>
              have hwsub : wfT sub = true := by
                have := wfT_lookup1 hw hl
                simpa [wfV] using this
              obtain ⟨hgr, har⟩ :=
                getP_setP_noPref (c :: rest) (b2 :: bs2) sub v sub2 hwsub hs hnp
              have hl2 : lookup1 (dictSet t a (.tree sub2)) a = some (.tree sub2) :=
                lookup1_dictSet_self t a _
              constructor
              · rw [getP_cons2, getP_cons2, hl2, hl]
                exact hgr
              · rw [attrGetP_cons2, attrGetP_cons2, hl2, hl]
                exact har
        · exact getP_congr_head bs (lookup1_dictSet_ne t a b _ he)
      · have := wfT_lookup1 hw hl
        simp [wfV] at this


/-!  Membership invariants of the reuse-policy iteration. -/

theorem findIdx_lt_of_mem {α : Type} {p : α → Bool} :
    ∀ {xs : List α} {x : α}, x ∈ xs → p x = true → xs.findIdx p < xs.length
  | [], x, hx, _ => by simp at hx
  | y :: ys, x, hx, hp => by
      rw [List.findIdx_cons]
      cases hpy : p y with
      | true => simp [hpy]
      | false =>
          rcases List.mem_cons.mp hx with rfl | hx2
          · rw [hpy] at hp; cases hp
          · have := findIdx_lt_of_mem hx2 hp
            simp only [hpy, cond_false, List.length_cons]
            omega

theorem pyEqV_refl (v : PValue) : pyEqV v v = true := by
  simp [pyEqV]

theorem runVals_mem :
    ∀ (vals : List PValue) (k : String) (st : Bool × PTree) (res : List (Bool × PTree)),
      wfT st.2 = true →
      (∃ w, getP st.2 (splitDots k) = .ok w) →
      (∀ v ∈ vals, wfV v = true) →
      runVals k st vals = .ok res →
      ∀ st2 ∈ res, wfT st2.2 = true ∧
        (∃ v ∈ vals, getP st2.2 (splitDots k) = .ok v ∧ attrGetP st2.2 (splitDots k) = .ok v) ∧
        (∀ q : List String, noPref (splitDots k) q = true →
          getP st2.2 q = getP st.2 q ∧ attrGetP st2.2 q = attrGetP st.2 q)
  | [], k, st, res, _, _, _, h => by
      simp only [runVals, Except.ok.injEq] at h
      intro st2 hm
      rw [← h] at hm
      simp at hm
  | v :: vs, k, st, res, hw, hex, hwv, h => by
      obtain ⟨w, hget⟩ := hex
      obtain ⟨t2, st', rest2, hset, hbr, hrec, hres⟩ := runVals_cons_inv h
      have hsetP : setP st.2 (splitDots k) v = .ok t2 := hset
      have hwv1 : wfV v = true := hwv v (List.mem_cons_self v vs)
      have hwt2 : wfT t2 = true := wfT_setP (splitDots k) st.2 v w t2 hw hwv1 hget hsetP
      have hst2 : st'.2 = t2 := by
        rcases hbr with ⟨-, rfl⟩ | ⟨-, c, hc, rfl⟩
        · rfl
        · have hid := psInitTree_id hwt2
          rw [hc] at hid
          exact Except.ok.inj hid
      have hg2 : getP t2 (splitDots k) = .ok v := getP_setP_self _ _ _ _ hsetP
      have ha2 : attrGetP t2 (splitDots k) = .ok v := attrGetP_setP_self _ _ _ _ hw hsetP
      have hpres : ∀ q : List String, noPref (splitDots k) q = true →
          getP t2 q = getP st.2 q ∧ attrGetP t2 q = attrGetP st.2 q :=
        fun q hq => getP_setP_noPref (splitDots k) q st.2 v t2 hw hsetP hq
      subst hres
      intro st2 hm
      rcases List.mem_cons.mp hm with rfl | hm2
      · rw [hst2]
        exact ⟨hwt2, ⟨v, List.mem_cons_self v vs, hg2, ha2⟩, hpres⟩
      · have hrecmem := runVals_mem vs k st' rest2 (by rw [hst2]; exact hwt2)
          ⟨v, by rw [hst2]; exact hg2⟩
          (fun u hu => hwv u (List.mem_cons_of_mem v hu)) hrec st2 hm2
        obtain ⟨hw2, ⟨v2, hv2mem, hv2g, hv2a⟩, hpres2⟩ := hrecmem
        refine ⟨hw2, ⟨v2, List.mem_cons_of_mem v hv2mem, hv2g, hv2a⟩, ?_⟩
        intro q hq
        obtain ⟨hgq, haq⟩ := hpres2 q hq
        obtain ⟨hgq2, haq2⟩ := hpres q hq
        constructor
        · rw [hgq, hst2]; exact hgq2
        · rw [haq, hst2]; exact haq2

theorem overStates_mem :
    ∀ (sts : List (Bool × PTree)) (k : String) (vals : List PValue)
      (out : List (Bool × PTree)),
      overStates k vals false sts = .ok out →
      ∀ st2 ∈ out, ∃ st0 ∈ sts, ∃ res, runVals k st0 vals = .ok res ∧ st2 ∈ res
  | [], _, _, out, h => by
      simp only [overStates, Except.ok.injEq] at h
      intro st2 hm
      rw [← h] at hm
      simp at hm
  | st :: rest, k, vals, out, h => by
      rw [overStates] at h
      simp only [Bool.false_eq_true, if_false] at h
      obtain ⟨a, h1, h⟩ := bind_ok_inv h
      obtain ⟨b, h2, h⟩ := bind_ok_inv h
      have hout : out = a ++ b := (Except.ok.inj h).symm
      subst hout
      intro st2 hm
      rcases List.mem_append.mp hm with hma | hmb
      · exact ⟨st, List.mem_cons_self st rest, a, h1, hma⟩
      · obtain ⟨st0, hst0, res, hres, hmem⟩ := overStates_mem rest k vals b h2 st2 hmb
        exact ⟨st0, List.mem_cons_of_mem st hst0, res, hres, hmem⟩

theorem iterKeys_mem :
    ∀ (keys : List String) (t : PTree) (out : List (Bool × PTree)),
      wfT t = true →
      (∀ k ∈ keys, ∃ vs2, getP t (splitDots k) = .ok (.range vs2) ∧ wfL vs2 = true) →
      List.Pairwise (fun a b => noPref (splitDots a) (splitDots b) = true) keys →
      iterInnerRangeKeys t keys false = .ok out →
      ∀ st ∈ out, wfT st.2 = true ∧
        (∀ k ∈ keys, ∃ vs2 v, getP t (splitDots k) = .ok (.range vs2) ∧ v ∈ vs2.toList ∧
          getP st.2 (splitDots k) = .ok v ∧ attrGetP st.2 (splitDots k) = .ok v) ∧
        (∀ q : List String, (∀ k2 ∈ keys, noPref (splitDots k2) q = true) →
          getP st.2 q = getP t q ∧ attrGetP st.2 q = attrGetP t q)
  | [], t, out, hw, _, _, h => by
      simp only [iterInnerRangeKeys, Except.ok.injEq] at h
      intro st hm
      rw [← h] at hm
      rw [treeCopy_content] at hm
      simp only [List.mem_singleton] at hm
      subst hm
      exact ⟨hw, by intro k hk; simp at hk, fun q _ => ⟨rfl, rfl⟩⟩
  | k :: rest, t, out, hw, hkeys, hpw, h => by
      rw [iterInnerRangeKeys] at h
      obtain ⟨inner, h1, h⟩ := bind_ok_inv h
      obtain ⟨rv, h2, h⟩ := bind_ok_inv h
      obtain ⟨vals, h3, h⟩ := bind_ok_inv h
      obtain ⟨vs2, hgk, hwl⟩ := hkeys k (List.mem_cons_self k rest)
      have h2g : getP t (splitDots k) = .ok rv := h2
      rw [hgk] at h2g
      have hrv : rv = .range vs2 := (Except.ok.inj h2g).symm
      subst hrv
      have h3g : (Except.ok vs2.toList : Except PErr (List PValue)) = .ok vals := h3
      have hvals : vals = vs2.toList := (Except.ok.inj h3g).symm
      subst hvals
      have hpwc := List.pairwise_cons.mp hpw
      have IH := iterKeys_mem rest t inner hw
        (fun k2 hk2 => hkeys k2 (List.mem_cons_of_mem k hk2)) hpwc.2 h1
      intro st hm
      obtain ⟨st0, hst0, res, hres, hmem⟩ := overStates_mem inner k vs2.toList out h st hm
      obtain ⟨hw0, hper0, hpres0⟩ := IH st0 hst0
      have hq0 : ∀ k2 ∈ rest, noPref (splitDots k2) (splitDots k) = true := by
        intro k2 hk2
        rw [noPref_symm]
        exact hpwc.1 k2 hk2
      obtain ⟨hg0, ha0⟩ := hpres0 (splitDots k) hq0
      have hgetst0 : getP st0.2 (splitDots k) = .ok (.range vs2) := by
        rw [hg0]; exact hgk
      have hrvm := runVals_mem vs2.toList k st0 res hw0 ⟨_, hgetst0⟩
        (fun u hu => wfL_mem hwl hu) hres st hmem
      obtain ⟨hwst, ⟨v, hvmem, hvg, hva⟩, hpresst⟩ := hrvm
      refine ⟨hwst, ?_, ?_⟩
      · intro k2 hk2
        rcases List.mem_cons.mp hk2 with rfl | hk2r
        · exact ⟨vs2, v, hgk, hvmem, hvg, hva⟩
        · obtain ⟨vs3, v3, hg3, hm3, hgs3, has3⟩ := hper0 k2 hk2r
          have hnp : noPref (splitDots k) (splitDots k2) = true := hpwc.1 k2 hk2r
          obtain ⟨hgq, haq⟩ := hpresst (splitDots k2) hnp
          exact ⟨vs3, v3, hg3, hm3, by rw [hgq]; exact hgs3, by rw [haq]; exact has3⟩
      · intro q hq
        obtain ⟨hgq, haq⟩ := hpresst q (hq k (List.mem_cons_self k rest))
        obtain ⟨hgq0, haq0⟩ := hpres0 q (fun k2 hk2 => hq k2 (List.mem_cons_of_mem k hk2))
        exact ⟨by rw [hgq, hgq0], by rw [haq, haq0]⟩

/-!  Shadow-aware attribute access: unfolding equations and agreement with
the no-shadowing approximation on unshadowed paths. -/

theorem attrGetPyP_one (attrs : String → Option PValue) (t : PTree) (k : String) :
    attrGetPyP attrs t [k] =
      (match attrs k with
       | some v => .ok v
       | none =>
          match lookup1 t k with
          | some v => .ok v
          | none => .error .attributeError) := rfl

theorem attrGetPyP_cons2 (attrs : String → Option PValue) (t : PTree)
    (k c : String) (rest : List String) :
    attrGetPyP attrs t (k :: c :: rest) =
      (match attrs k with
       | some _ => .error .attributeError
       | none =>
          match lookup1 t k with
          | none => .error .attributeError
          | some (.tree sub) => attrGetPyP attrs sub (c :: rest)
          | some _ => .error .attributeError) := rfl

theorem attrGetPyP_unshadowed (attrs : String → Option PValue) :
    ∀ (p : List String) (t : PTree), (∀ c ∈ p, attrs c = none) →
      attrGetPyP attrs t p = attrGetP t p
  | [], _, _ => rfl
  | [k], t, h => by
      have hk : attrs k = none := h k (by simp)
      rw [attrGetPyP_one, attrGetP_one, hk]
  | k :: c :: rest, t, h => by
      have hk : attrs k = none := h k (by simp)
      rw [attrGetPyP_cons2, attrGetP_cons2, hk]
      cases lookup1 t k with
      | none => rfl
      | some w =>
          cases w with
          | tree sub =>
              exact attrGetPyP_unshadowed attrs (c :: rest) sub
                (fun d hd => h d (List.mem_cons_of_mem k hd))
          | int n => rfl
          | str s => rfl
          | list l => rfl
          | dict d => rfl
          | range vs => rfl
          | dist i => rfl
          | ref p2 o => rfl
          | other i => rfl

theorem psIndexGo_ok :
    ∀ (keys : List String) (attrs : String → Option PValue) (t pt : PTree),
      (∀ k ∈ keys, ∃ vs2 v, attrGetPy attrs t k = .ok (.range vs2) ∧
        attrGetPy attrs pt k = .ok v ∧
        pyIdxOf vs2.toList v < vs2.toList.length) →
      ∃ idx, psIndexGo attrs t pt keys = .ok idx ∧
        List.Forall₂ (fun k i => ∃ vs2 v, attrGetPy attrs t k = .ok (.range vs2) ∧
          attrGetPy attrs pt k = .ok v ∧ i = pyIdxOf vs2.toList v ∧ i < vs2.toList.length)
          keys idx
  | [], _, t, pt, _ => ⟨[], rfl, List.Forall₂.nil⟩
  | k :: rest, attrs, t, pt, hks => by
      obtain ⟨vs2, v, hat, hap, hlt⟩ := hks k (List.mem_cons_self k rest)
      obtain ⟨idx, hrec, hf2⟩ := psIndexGo_ok rest attrs t pt
        (fun k2 hk2 => hks k2 (List.mem_cons_of_mem k hk2))
      refine ⟨pyIdxOf vs2.toList v :: idx, ?_, ?_⟩
      · rw [psIndexGo, hap]
        simp only [exceptBind_ok]
        rw [hat]
        simp only [exceptBind_ok]
        rw [if_pos hlt, hrec]
        simp only [exceptBind_ok]
      · exact List.Forall₂.cons ⟨vs2, v, hat, hap, rfl, hlt⟩ hf2

theorem psIndexGo_miss :
    ∀ (keys : List String) (attrs : String → Option PValue) (t pt : PTree),
      (∀ k ∈ keys, ∃ vs2 v, attrGetPy attrs t k = .ok (.range vs2) ∧
        attrGetPy attrs pt k = .ok v) →
      (∃ k ∈ keys, ∃ vs2 v, attrGetPy attrs t k = .ok (.range vs2) ∧
        attrGetPy attrs pt k = .ok v ∧
        vs2.toList.length ≤ pyIdxOf vs2.toList v) →
      psIndexGo attrs t pt keys = .error .pointNotInSpace
  | [], _, t, pt, _, hex => by
      obtain ⟨k, hk, -⟩ := hex
      simp at hk
  | k :: rest, attrs, t, pt, hall, hex => by
      obtain ⟨vs2, v, hat, hap⟩ := hall k (List.mem_cons_self k rest)
      rw [psIndexGo, hap]
      simp only [exceptBind_ok]
      rw [hat]
      simp only [exceptBind_ok]
      by_cases hlt : pyIdxOf vs2.toList v < vs2.toList.length
      · rw [if_pos hlt]
        have hexr : ∃ k2 ∈ rest, ∃ vs3 v3, attrGetPy attrs t k2 = .ok (.range vs3) ∧
            attrGetPy attrs pt k2 = .ok v3 ∧
            vs3.toList.length ≤ pyIdxOf vs3.toList v3 := by
          obtain ⟨k2, hk2, vs3, v3, hat3, hap3, hge3⟩ := hex
          rcases List.mem_cons.mp hk2 with rfl | hk2r
          · rw [hat] at hat3
            rw [hap] at hap3
            have hvs : PValue.range vs2 = PValue.range vs3 := Except.ok.inj hat3
            have hv : v = v3 := Except.ok.inj hap3
            injection hvs with hvs2
            subst hvs2
            subst hv
            exact absurd hlt (Nat.not_lt.mpr hge3)
          · exact ⟨k2, hk2r, vs3, v3, hat3, hap3, hge3⟩
        have hrec := psIndexGo_miss rest attrs t pt
          (fun k2 hk2 => hall k2 (List.mem_cons_of_mem k hk2)) hexr
        rw [hrec]
        rfl
      · rw [if_neg hlt]

/-!  Claim C3: parameter_space_index against full-axis iteration. -/

/-- Counterexample to claim C3 as stated: on the space
`{label: ParameterRange([1, 2])}` — which the constructor accepts and which
full-axis iteration walks to two points — `parameter_space_index` does not
return a coordinate for a yielded point.  Normal attribute lookup precedes
the `__getattr__` dict fallback, so `eval('current_experiment.label')`
resolves to the genuine `label` attribute installed by `__init__` (`None`),
as does `eval('self.label')`, and reading `._values` off it raises
`AttributeError` instead of indexing the candidate sequence. -/
theorem parameterSpaceIndex_shadow_cex :
    wfT shadowSpace = true ∧
    psInitTree shadowSpace = .ok shadowSpace ∧
    iterInner shadowSpace false =
      .ok [(false, .cons "label" (.int 1) .nil), (false, .cons "label" (.int 2) .nil)] ∧
    shadowTable "label" = some (.other 0) ∧
    parameterSpaceIndex shadowTable shadowSpace (.cons "label" (.int 1) .nil) =
      .error .attributeError := by
  decide

/-- Claim C3 (status: corrected).  The original claim fails on spaces whose
Range keys collide with genuine `ParameterSet` attributes (see
`parameterSpaceIndex_shadow_cex`): `getattr` — hence `eval('self.' + key)`
— performs normal attribute lookup first and reaches the dict entries
through `__getattr__` only when that fails.  Amended: over every
genuine-attribute table, for every point yielded by full-axis iteration
(`iter_inner`, reuse policy — the default) of a well-formed space whose
Range-key path components are identifiers naming no genuine attribute,
`parameter_space_index` succeeds and returns, per sorted Range key,
exactly the `list.index` position of the point's value for that key within
the space's original candidate sequence; and on a tree that resolves at
every sorted Range key but whose value at some key is absent from the
corresponding candidate sequence, it fails with the "not within the
ParameterSpace" `ValueError` (`pointNotInSpace`). -/
theorem parameterSpaceIndex_inverse :
    (∀ (attrs : String → Option PValue) (t : PTree) (out : List (Bool × PTree)),
      wfT t = true →
      (∀ k ∈ rangeKeys t, ∀ c ∈ splitDots k, isPyIdent c = true ∧ attrs c = none) →
      iterInner t false = .ok out → ∀ st ∈ out,
      ∃ idx, parameterSpaceIndex attrs t st.2 = .ok idx ∧
        List.Forall₂ (fun k i => ∃ vs2 v, attrGetPy attrs t k = .ok (.range vs2) ∧
          attrGetPy attrs st.2 k = .ok v ∧ i = pyIdxOf vs2.toList v ∧
          i < vs2.toList.length)
          (sortedRangeKeys t) idx) ∧
    (∀ (attrs : String → Option PValue) (t pt : PTree),
      (∀ k ∈ rangeKeys t, ∀ c ∈ splitDots k, isPyIdent c = true ∧ attrs c = none) →
      (∀ k ∈ sortedRangeKeys t, ∃ vs2 v, attrGetPy attrs t k = .ok (.range vs2) ∧
        attrGetPy attrs pt k = .ok v) →
      (∃ k ∈ sortedRangeKeys t, ∃ vs2 v, attrGetPy attrs t k = .ok (.range vs2) ∧
        attrGetPy attrs pt k = .ok v ∧ vs2.toList.length ≤ pyIdxOf vs2.toList v) →
      parameterSpaceIndex attrs t pt = .error .pointNotInSpace) := by
  constructor
  · intro attrs t out hw hunsh hiter st hst
    have hkeys : ∀ k ∈ rangeKeys t,
        ∃ vs2, getP t (splitDots k) = .ok (.range vs2) ∧ wfL vs2 = true := by
      intro k hk
      obtain ⟨vs2, hg, -, hwl⟩ := rangeKeys_getP hw hk
      exact ⟨vs2, hg, hwl⟩
    have hpw := rangeKeys_pairwise hw (rangeKeys_nodup hw)
    obtain ⟨-, hper, -⟩ := iterKeys_mem (rangeKeys t) t out hw hkeys hpw hiter st hst
    have hks : ∀ k ∈ sortedRangeKeys t, ∃ vs2 v, attrGetPy attrs t k = .ok (.range vs2) ∧
        attrGetPy attrs st.2 k = .ok v ∧ pyIdxOf vs2.toList v < vs2.toList.length := by
      intro k hk
      have hkr : k ∈ rangeKeys t := (List.perm_insertionSort _ _).mem_iff.mp hk
      have hbr : ∀ c ∈ splitDots k, attrs c = none :=
        fun c hc => (hunsh k hkr c hc).2
      have het : attrGetPy attrs t k = attrGetP t (splitDots k) :=
        attrGetPyP_unshadowed attrs (splitDots k) t hbr
      have hest : attrGetPy attrs st.2 k = attrGetP st.2 (splitDots k) :=
        attrGetPyP_unshadowed attrs (splitDots k) st.2 hbr
      obtain ⟨vs2, v, hg, hvmem, hvg, hva⟩ := hper k hkr
      obtain ⟨vs3, hg3, ha3, -⟩ := rangeKeys_getP hw hkr
      rw [hg] at hg3
      have hvs : vs2 = vs3 := by
        have hj : PValue.range vs2 = PValue.range vs3 := Except.ok.inj hg3
        injection hj
      subst hvs
      refine ⟨vs2, v, ?_, ?_, findIdx_lt_of_mem hvmem (pyEqV_refl v)⟩
      · rw [het]; exact ha3
      · rw [hest]; exact hva
    obtain ⟨idx, hok, hf2⟩ := psIndexGo_ok (sortedRangeKeys t) attrs t st.2 hks
    exact ⟨idx, hok, hf2⟩
  · intro attrs t pt _ hall hex
    exact psIndexGo_miss (sortedRangeKeys t) attrs t pt hall hex

/-- Witness for `parameterSpaceIndex_inverse`, over the genuine-attribute
table the source installs: on the 2-by-3 space (keys `r1`, `r2` — unshadowed
identifiers), the yielded point `{r1: 20, r2: 3}` indexes back to
coordinates, and the off-grid point `{r1: 99, r2: 3}` is rejected as not in
the space. -/
theorem parameterSpaceIndex_inverse_witness :
    (∃ idx, parameterSpaceIndex shadowTable space23
        (PTree.cons "r1" (.int 20) (.cons "r2" (.int 3) .nil)) = .ok idx ∧
      List.Forall₂ (fun k i => ∃ vs2 v,
        attrGetPy shadowTable space23 k = .ok (.range vs2) ∧
        attrGetPy shadowTable (PTree.cons "r1" (.int 20) (.cons "r2" (.int 3) .nil)) k =
          .ok v ∧
        i = pyIdxOf vs2.toList v ∧ i < vs2.toList.length)
        (sortedRangeKeys space23) idx) ∧
    parameterSpaceIndex shadowTable space23
        (.cons "r1" (.int 99) (.cons "r2" (.int 3) .nil)) =
      .error .pointNotInSpace := by
  constructor
  · exact parameterSpaceIndex_inverse.1 shadowTable space23
      [ (false, .cons "r1" (.int 10) (.cons "r2" (.int 1) .nil)),
        (false, .cons "r1" (.int 20) (.cons "r2" (.int 1) .nil)),
        (false, .cons "r1" (.int 10) (.cons "r2" (.int 2) .nil)),
        (false, .cons "r1" (.int 20) (.cons "r2" (.int 2) .nil)),
        (false, .cons "r1" (.int 10) (.cons "r2" (.int 3) .nil)),
        (false, .cons "r1" (.int 20) (.cons "r2" (.int 3) .nil))]
      (by decide) (by decide) (by decide)
      ((false : Bool), PTree.cons "r1" (.int 20) (.cons "r2" (.int 3) .nil)) (by decide)
  · refine parameterSpaceIndex_inverse.2 shadowTable space23
      (.cons "r1" (.int 99) (.cons "r2" (.int 3) .nil)) (by decide) ?_ ?_
    · intro k hk
      have he : sortedRangeKeys space23 = ["r1", "r2"] := by decide
      rw [he] at hk
      simp only [List.mem_cons, List.not_mem_nil, or_false] at hk
      rcases hk with rfl | rfl
      · exact ⟨.cons (.int 10) (.cons (.int 20) .nil), .int 99, by decide, by decide⟩
      · exact ⟨.cons (.int 1) (.cons (.int 2) (.cons (.int 3) .nil)), .int 3,
          by decide, by decide⟩
    · exact ⟨"r1", by decide, .cons (.int 10) (.cons (.int 20) .nil), .int 99,
        by decide, by decide, by decide⟩

end Params
